import Mathlib

/-!
Verification development for the include-resolution and region-synchronization
engine of the vscode-virtual-include extension.

The embedding models text at the granularity the source manipulates it:
a document is a list of lines, a line is a list of characters (the source
splits document text and file contents on the newline character before any
comparison or edit, and joins with the same separator; on newline-free lines
the split/join pair is a bijection, so list equality coincides with the
string comparisons performed by the source).

External capabilities (the `path` module, the file system, the editor) are
parameters of the model, mirroring the module boundaries of the source.
-/

namespace VInc

/-- Characters treated as whitespace by the JavaScript regex class `\s` and
by `String.prototype.trim` (ASCII portion, which covers all inputs the
engine builds itself). -/
def isWS (c : Char) : Bool :=
  c = ' ' ∨ c = '\t' ∨ c = '\n' ∨ c = '\r' ∨ c = '\x0b' ∨ c = '\x0c'

/-- Quote characters accepted by the directive patterns (the regex class
consisting of the double and the single quote). -/
def isQuote (c : Char) : Bool :=
  c = '"' ∨ c = '\''

/-- Convenience conversion from a Lean string literal to the character-list
representation used throughout the model. -/
def str (s : String) : List Char := s.data

/-- Leading-whitespace run of a line; models the capture of `^(\s*)`. -/
def wsHead (l : List Char) : List Char := l.takeWhile isWS

/-- JavaScript `String.prototype.trim` on a line. -/
def trimWS (l : List Char) : List Char :=
  ((l.dropWhile isWS).reverse.dropWhile isWS).reverse

/-- Strip a literal token from the front of the input; models matching the
regex-escaped comment token, which matches exactly its own characters. -/
def chompLit : List Char → List Char → Option (List Char)
  | [], rest => some rest
  | _ :: _, [] => none
  | p :: ps, c :: cs => if p = c then chompLit ps cs else none

/-- Split the input at its first quote character: returns the characters
before the quote, the quote itself, and the characters after it. -/
def splitAtFirstQuote : List Char → Option (List Char × Char × List Char)
  | [] => none
  | c :: rest =>
    if isQuote c then some ([], c, rest)
    else (splitAtFirstQuote rest).map (fun p => (c :: p.1, p.2))

/-- Lazy capture for `(.+?)["']`: at least one character, then the shortest
extension whose next character is a quote.  Returns the capture, the closing
quote, and the rest after it. -/
def captureLazy : List Char → Option (List Char × Char × List Char)
  | [] => none
  | c :: rest => (splitAtFirstQuote rest).map (fun p => (c :: p.1, p.2))

/-- Attempt the directive pattern `tok \s* virtualInclude \s+ ["'] (.+?) ["']`
at the current position.  Every quantifier in this pattern is forced by the
following literal (the characters `v` and the quotes are not whitespace), so
backtracking collapses to the greedy/lazy deterministic reading implemented
here. -/
def matchDirectiveAt (tok : List Char) (l : List Char) : Option (List Char) :=
  (chompLit tok l).bind fun r1 =>
  (chompLit (str "virtualInclude") (r1.dropWhile isWS)).bind fun r3 =>
  match r3 with
  | c :: _ =>
    if isWS c then
      (match r3.dropWhile isWS with
      | q :: r5 => if isQuote q then (captureLazy r5).map (fun p => p.1) else none
      | [] => none)
    else none
  | [] => none

/-- Leftmost match of the default include-directive pattern
`${escaped tok}\s*virtualInclude\s+["'](.+?)["']`; returns capture group 1.
Models `line.match(includeDirectivePattern)` for the default pattern. -/
def matchDirective (tok : List Char) : List Char → Option (List Char)
  | [] => matchDirectiveAt tok []
  | l@(_ :: rest) => (matchDirectiveAt tok l).orElse (fun _ => matchDirective tok rest)

/-- Tail of the override pattern after the first capture's closing quote:
`\s+with\s+["']([^"']+)["']`.  Deterministic for the same class-disjointness
reasons as `matchDirectiveAt`. -/
def withTail (r : List Char) : Option (List Char) :=
  match r with
  | c :: _ =>
    if isWS c then
      (chompLit (str "with") (r.dropWhile isWS)).bind fun r3 =>
      (match r3 with
      | d :: _ =>
        if isWS d then
          (match r3.dropWhile isWS with
          | q :: r5 =>
            if isQuote q then
              let cap2 := r5.takeWhile (fun c => ¬ isQuote c)
              if cap2.length > 0 then
                (match r5.drop cap2.length with
                | q2 :: _ => if isQuote q2 then some cap2 else none
                | [] => none)
              else none
            else none
          | [] => none)
        else none
      | [] => none)
    else none
  | [] => none

/-- Backtracking over the closing quote of the first capture of the override
pattern: the lazy `.+?` is extended one character at a time, and at each
quote character the rest of the pattern is attempted; the first success wins,
exactly as the regex engine proceeds. -/
def overrideCont (acc : List Char) : List Char → Option (List Char × List Char)
  | [] => none
  | c :: rest =>
    if isQuote c ∧ acc.length > 0 then
      match withTail rest with
      | some cap2 => some (acc.reverse, cap2)
      | none => overrideCont (c :: acc) rest
    else overrideCont (c :: acc) rest

/-- Leftmost match of `COMMENT_OVERRIDE_REGEX`:
`virtualInclude\s+["'](.+?)["']\s+with\s+["']([^"']+)["']`.
Returns (capture 1, capture 2): the include path and the comment token. -/
def matchOverride : List Char → Option (List Char × List Char)
  | [] => none
  | l@(_ :: rest) =>
    (((chompLit (str "virtualInclude") l).bind fun r =>
      match r with
      | c :: _ =>
        if isWS c then
          (match r.dropWhile isWS with
          | q :: r3 => if isQuote q then overrideCont [] r3 else none
          | [] => none)
        else none
      | [] => none) : Option (List Char × List Char)).orElse
      (fun _ => matchOverride rest)

/-- Leftmost match of the path-extraction pattern
`virtualInclude\s+["'](.+?)["']` used by `updateDocument`. -/
def matchIncludePath : List Char → Option (List Char)
  | [] => none
  | l@(_ :: rest) =>
    (((chompLit (str "virtualInclude") l).bind fun r =>
      match r with
      | c :: _ =>
        if isWS c then
          (match r.dropWhile isWS with
          | q :: r5 => if isQuote q then (captureLazy r5).map (fun p => p.1) else none
          | [] => none)
        else none
      | [] => none) : Option (List Char)).orElse (fun _ => matchIncludePath rest)

/-- Attempt the neutralization pattern `(\s*\S+\s+)virtualInclude(\s+["'].+?["'])`
at the current position.  Returns (group 1, group 2, rest after the match).
The whitespace/non-whitespace alternation makes every quantifier
deterministic at a fixed start position. -/
def neutAt (l : List Char) : Option (List Char × List Char × List Char) :=
  let w1 := l.takeWhile isWS
  let r1 := l.dropWhile isWS
  let n := r1.takeWhile (fun c => ¬ isWS c)
  let r2 := r1.dropWhile (fun c => ¬ isWS c)
  if n.length > 0 then
    let w2 := r2.takeWhile isWS
    let r3 := r2.dropWhile isWS
    if w2.length > 0 then
      (chompLit (str "virtualInclude") r3).bind fun r4 =>
      (match r4 with
      | c :: _ =>
        if isWS c then
          let w3 := r4.takeWhile isWS
          (match r4.dropWhile isWS with
          | q :: r5 =>
            if isQuote q then
              (captureLazy r5).map fun p =>
                (w1 ++ n ++ w2, w3 ++ [q] ++ p.1 ++ [p.2.1], p.2.2)
            else none
          | [] => none)
        else none
      | [] => none)
    else none
  else none

/-- First-match replacement for the neutralization rewrite: the leftmost
position admitting the pattern has its keyword replaced by the inert
spelling, with both groups preserved, as `String.prototype.replace` does
with a non-global regex. -/
def replaceNeut : List Char → Option (List Char)
  | [] => none
  | l@(c :: rest) =>
    match neutAt l with
    | some (g1, g2, after) =>
      some (g1 ++ str "virtualInclude-nested (edit source file to modify)" ++ g2 ++ after)
    | none => (replaceNeut rest).map (fun r => c :: r)

/-!
Embedding of `LanguageService` (language-service.ts).  A regex source string
is represented semantically by its matching function; the default directive
pattern is `matchDirective` applied to the comment-start token, and the two
marker templates are the literal template strings of `createDefaultSettings`.
-/

/-- Comment style of a language: start token and (possibly empty) end token.
The `end` field of the source is called `stop` here because `end` is a Lean
keyword. -/
structure CommentStyle where
  start : List Char
  stop : List Char

/-- Language settings triple.  The `includeDirectivePattern` regex source is
embedded as its matching function, returning capture group 1 of the leftmost
match. -/
structure LanguageSettings where
  pattern : List Char → Option (List Char)
  startMarkerTemplate : List Char
  endMarkerTemplate : List Char

/-- `LanguageService.createDefaultSettings`: pattern and marker templates
generated from a comment style. -/
def createDefaultSettings (cs : CommentStyle) : LanguageSettings where
  pattern := matchDirective cs.start
  startMarkerTemplate :=
    cs.start ++ str " virtualIncludeStart - DO NOT EDIT CONTENT BELOW " ++ cs.stop
  endMarkerTemplate :=
    cs.start ++ str " virtualIncludeEnd - DO NOT EDIT CONTENT ABOVE " ++ cs.stop

/-- The static `COMMENT_STYLES` table. -/
def commentStyles (languageId : List Char) : Option CommentStyle :=
  if languageId = str "javascript" then some ⟨str "//", []⟩
  else if languageId = str "typescript" then some ⟨str "//", []⟩
  else if languageId = str "python" then some ⟨str "#", []⟩
  else if languageId = str "ruby" then some ⟨str "#", []⟩
  else if languageId = str "powershell" then some ⟨str "#", []⟩
  else if languageId = str "shellscript" then some ⟨str "#", []⟩
  else if languageId = str "csharp" then some ⟨str "//", []⟩
  else if languageId = str "java" then some ⟨str "//", []⟩
  else if languageId = str "c" then some ⟨str "//", []⟩
  else if languageId = str "cpp" then some ⟨str "//", []⟩
  else if languageId = str "go" then some ⟨str "//", []⟩
  else if languageId = str "rust" then some ⟨str "//", []⟩
  else if languageId = str "php" then some ⟨str "//", []⟩
  else if languageId = str "perl" then some ⟨str "#", []⟩
  else if languageId = str "lua" then some ⟨str "--", []⟩
  else if languageId = str "sql" then some ⟨str "--", []⟩
  else if languageId = str "yaml" then some ⟨str "#", []⟩
  else if languageId = str "html" then some ⟨str "<!--", str "-->"⟩
  else if languageId = str "xml" then some ⟨str "<!--", str "-->"⟩
  else if languageId = str "css" then some ⟨str "/*", str "*/"⟩
  else none

/-- Per-language configuration override for `languageSettings` (a JS object
spread: only the keys present override the defaults). -/
structure LangSettingsOverride where
  pattern : Option (List Char → Option (List Char))
  startMarkerTemplate : Option (List Char)
  endMarkerTemplate : Option (List Char)

/-- A configured or built-in section override rule; the two regex sources are
embedded as Boolean test functions. -/
structure SectionOverrideRule where
  fileType : List Char
  patternTest : List Char → Bool
  commentStyle : List Char
  continueUntilTest : List Char → Bool

/-- The extension's configuration surface, as consumed by LanguageService. -/
structure Config where
  defaultCommentStyle : List Char
  languageSettings : List Char → Option LangSettingsOverride
  detectFromExtension : Bool
  languageOverrides : List SectionOverrideRule

/-- `LanguageService.getCommentStyle`. -/
def getCommentStyle (cfg : Config) (languageId : List Char) : CommentStyle :=
  (commentStyles languageId).getD ⟨cfg.defaultCommentStyle, []⟩

/-- JS object spread of a partial override onto complete default settings. -/
def mergeSettings (d : LanguageSettings) (o : LangSettingsOverride) : LanguageSettings where
  pattern := o.pattern.getD d.pattern
  startMarkerTemplate := o.startMarkerTemplate.getD d.startMarkerTemplate
  endMarkerTemplate := o.endMarkerTemplate.getD d.endMarkerTemplate

/-- `LanguageService.getLanguageSettings`. -/
def getLanguageSettings (cfg : Config) (languageId : List Char) : LanguageSettings :=
  let d := createDefaultSettings (getCommentStyle cfg languageId)
  match cfg.languageSettings languageId with
  | some o => mergeSettings d o
  | none => d

/-- The static `EXTENSION_TO_LANGUAGE` table. -/
def extensionToLanguage (ext : List Char) : Option (List Char) :=
  if ext = str ".js" then some (str "javascript")
  else if ext = str ".ts" then some (str "typescript")
  else if ext = str ".py" then some (str "python")
  else if ext = str ".rb" then some (str "ruby")
  else if ext = str ".ps1" then some (str "powershell")
  else if ext = str ".sh" then some (str "shellscript")
  else if ext = str ".cs" then some (str "csharp")
  else if ext = str ".java" then some (str "java")
  else if ext = str ".c" then some (str "c")
  else if ext = str ".cpp" then some (str "cpp")
  else if ext = str ".go" then some (str "go")
  else if ext = str ".rs" then some (str "rust")
  else if ext = str ".php" then some (str "php")
  else if ext = str ".pl" then some (str "perl")
  else if ext = str ".lua" then some (str "lua")
  else if ext = str ".sql" then some (str "sql")
  else if ext = str ".yaml" then some (str "yaml")
  else if ext = str ".yml" then some (str "yaml")
  else if ext = str ".html" then some (str "html")
  else if ext = str ".xml" then some (str "xml")
  else if ext = str ".css" then some (str "css")
  else none

/-- Extension of a path from its last dot (inclusive), lowercased; `none`
when the path has no dot, mirroring `lastIndexOf` returning -1. -/
def extOf (p : List Char) : Option (List Char) :=
  if p.contains '.' then
    some (('.' :: (p.reverse.takeWhile (fun c => c ≠ '.')).reverse).map Char.toLower)
  else none

/-- `LanguageService.getLanguageFromExtension`. -/
def getLanguageFromExtension (cfg : Config) (filePath : List Char) : Option (List Char) :=
  if cfg.detectFromExtension = false then none
  else
    match extOf filePath with
    | none => none
    | some e => extensionToLanguage e

/-- `LanguageService.getCommentStyleOverride`: capture group 2 of the
override regex. -/
def getCommentStyleOverride (line : List Char) : Option (List Char) :=
  (matchOverride line).map (fun p => p.2)

/-- Test of the built-in HTML section-start regex source. -/
def scriptAt (l : List Char) : Bool :=
  match chompLit (str "<script") l with
  | some r => (r.dropWhile (fun c => ¬ (c = '>'))).head? = some '>'
  | none => false

/-- Substring search for the HTML section-start test. -/
def testScript : List Char → Bool
  | [] => false
  | l@(_ :: rest) => scriptAt l || testScript rest

/-- Substring containment, modelling `.test` of a regex that is a plain
literal. -/
def containsLit (pat : List Char) : List Char → Bool
  | [] => (chompLit pat ([] : List Char)).isSome
  | l@(_ :: rest) => (chompLit pat l).isSome || containsLit pat rest

/-- Test of the built-in YAML section-start regex source at one position. -/
def tmplAt (l : List Char) : Bool :=
  match chompLit (str "template:") l with
  | some r => (chompLit (str ">-") (r.dropWhile isWS)).isSome
  | none => false

/-- Search for the YAML section-start test. -/
def testTemplate : List Char → Bool
  | [] => false
  | l@(_ :: rest) => tmplAt l || testTemplate rest

/-- Test of the anchored regex source caret-backslash-S: a first character
exists and is not whitespace. -/
def testNonWSStart (l : List Char) : Bool :=
  match l with
  | c :: _ => ¬ isWS c
  | [] => false

/-- The static `BUILT_IN_SECTION_OVERRIDES` list. -/
def builtInSectionOverrides : List SectionOverrideRule :=
  [⟨str "html", testScript, str "//", containsLit (str "</script>")⟩,
   ⟨str "yaml", testTemplate, str "--", testNonWSStart⟩]

/-- Document context handed to LanguageService: language id plus the lines
used by `document.lineAt`. -/
structure DocCtx where
  languageId : List Char
  lines : List (List Char)

/-- The text of line `i` of the document. -/
def lineAt (doc : DocCtx) (i : Nat) : List Char := doc.lines.getD i []

/-- The inner closure check of `getSectionOverride`: some line strictly
between the section start `i` and the current line `ln` (inclusive) matches
the override's continuation regex. -/
def closedBetween (o : SectionOverrideRule) (doc : DocCtx) (i ln : Nat) : Bool :=
  ((List.range (ln - i)).map (fun d => i + 1 + d)).any
    (fun j => o.continueUntilTest (lineAt doc j))

/-- Backward scan of `getSectionOverride` from line `k` down to 0: at the
first (nearest) line matching some relevant override's start pattern the scan
stops; the override applies only if that section is still unclosed. -/
def sectionScanAux (relevant : List SectionOverrideRule) (doc : DocCtx) (ln : Nat) :
    Nat → Option (List Char)
  | 0 =>
    (relevant.find? (fun o => o.patternTest (lineAt doc 0))).bind
      (fun o => if closedBetween o doc 0 ln then none else some o.commentStyle)
  | Nat.succ k =>
    match relevant.find? (fun o => o.patternTest (lineAt doc (k + 1))) with
    | some o => if closedBetween o doc (k + 1) ln then none else some o.commentStyle
    | none => sectionScanAux relevant doc ln k

/-- `LanguageService.getSectionOverride`. -/
def getSectionOverride (cfg : Config) (doc : DocCtx) (lineNumber : Nat) :
    Option (List Char) :=
  let overrides := builtInSectionOverrides ++ cfg.languageOverrides
  let relevant := overrides.filter (fun o => o.fileType = doc.languageId)
  if relevant.isEmpty then none
  else sectionScanAux relevant doc lineNumber lineNumber

/-- `LanguageService.getContextAwareSettings`. -/
def getContextAwareSettings (cfg : Config) (doc : DocCtx) (lineNumber : Nat)
    (line : List Char) (includedFilePath : Option (List Char)) : LanguageSettings :=
  match getCommentStyleOverride line with
  | some tok => createDefaultSettings ⟨tok, []⟩
  | none =>
    match getSectionOverride cfg doc lineNumber with
    | some csTok => createDefaultSettings ⟨csTok, []⟩
    | none =>
      match includedFilePath.bind (getLanguageFromExtension cfg) with
      | some lang => getLanguageSettings cfg lang
      | none => getLanguageSettings cfg doc.languageId

/-!
Embedding of `DocumentProcessor` (document-processor.ts).  The `path` module
and the file system are abstract capabilities; the editor document is the
list of its lines.
-/

/-- Abstract model of the node `path` module plus the platform flag. -/
structure PathModel where
  isAbsolute : List Char → Bool
  dirname : List Char → List Char
  resolve : List Char → List Char → List Char
  normalize : List Char → List Char
  isWin32 : Bool

/-- `DocumentProcessor._resolveIncludePath`. -/
def resolveIncludePath (pm : PathModel) (docPath includePath : List Char) : List Char :=
  if pm.isAbsolute includePath then includePath
  else pm.resolve (pm.dirname docPath) includePath

/-- Character-wise lowering, modelling `String.prototype.toLowerCase` on the
character sets appearing in paths. -/
def lowerAll (l : List Char) : List Char := l.map Char.toLower

/-- `DocumentProcessor._isSelfInclude`. -/
def isSelfInclude (pm : PathModel) (docPath includePath : List Char) : Bool :=
  let resolved := resolveIncludePath pm docPath includePath
  let nd := pm.normalize docPath
  let ni := pm.normalize resolved
  if pm.isWin32 then lowerAll ni = lowerAll nd else ni = nd

/-- One line of `DocumentProcessor._neutralizeNestedIncludes`: marker lines
pass through; lines matching the include pattern have their first
neutralization-pattern match rewritten to the inert spelling (a line that
tests positive but admits no replace-pattern match is returned unchanged,
as `String.prototype.replace` does). -/
def neutralizeLine (L : LanguageSettings) (line : List Char) : List Char :=
  if trimWS line = trimWS L.startMarkerTemplate ∨
     trimWS line = trimWS L.endMarkerTemplate then line
  else if (L.pattern line).isSome then (replaceNeut line).getD line
  else line

/-- `DocumentProcessor._neutralizeNestedIncludes` on split content. -/
def neutralizeContent (L : LanguageSettings) (content : List (List Char)) :
    List (List Char) :=
  content.map (neutralizeLine L)

/-- Environment of one document-processing request: the document language's
settings, the context-resolution capability (LanguageService), the file
system, the path module, and the document's identity. -/
structure ProcEnv where
  L : LanguageSettings
  ctx : List (List Char) → Nat → List Char → Option (List Char) → LanguageSettings
  fs : List Char → Option (List (List Char))
  pm : PathModel
  docPath : List Char
  docKey : List Char

/-- Indentation applied to every non-empty content line. -/
def applyIndent (ind : List Char) (content : List (List Char)) : List (List Char) :=
  content.map (fun cl => if cl.length > 0 then ind ++ cl else cl)

/-- Forward search for the first line whose trim equals either resolved
end-marker template; returns the index relative to the start of the searched
suffix.  Used by both the scan (lines 155-165) and the update (lines
421-430) of document-processor.ts, which `break` at the first hit. -/
def findFirstEndRel (t1 t2 : List Char) : List (List Char) → Option Nat
  | [] => none
  | l :: rest =>
    if trimWS l = t1 ∨ trimWS l = t2 then some 0
    else (findFirstEndRel t1 t2 rest).map (fun k => k + 1)

/-- State accumulated by the scan loop of `processDocument`: the include map,
the needs-edit flag, the user-facing warning and error counts, and the
resolved source paths recorded into the source-to-documents mapping. -/
structure ScanState where
  includeMap : List (Nat × List (List Char))
  needsEdit : Bool
  warnings : Nat
  errors : Nat
  sources : List (List Char)

/-- Body of the scan loop of `processDocument` for line `i`; `rest` is the
list of lines after line `i`, so the absolute index `j` of the source
corresponds to the relative index `j - (i + 2)` into `rest`'s tail. -/
def scanLine (env : ProcEnv) (lines0 : List (List Char)) (i : Nat) (line : List Char)
    (rest : List (List Char)) (s : ScanState) : ScanState :=
  let cas := env.ctx lines0 i line none
  match cas.pattern line with
  | none => s
  | some m1 =>
    let filePath := ((matchOverride line).map (fun p => p.1)).getD m1
    if isSelfInclude env.pm env.docPath filePath then
      { s with warnings := s.warnings + 1 }
    else
      let resolvedPath := resolveIncludePath env.pm env.docPath filePath
      match env.fs resolvedPath with
      | none => { s with errors := s.errors + 1 }
      | some content =>
        let s1 := { s with includeMap := s.includeMap ++ [(i, content)],
                           sources := s.sources ++ [resolvedPath] }
        let cas2 := env.ctx lines0 i line (some resolvedPath)
        match rest with
        | [] => { s1 with needsEdit := true }
        | nl :: rest2 =>
          if trimWS nl = trimWS env.L.startMarkerTemplate ∨
             trimWS nl = trimWS cas2.startMarkerTemplate then
            match findFirstEndRel (trimWS env.L.endMarkerTemplate)
                (trimWS cas2.endMarkerTemplate) rest2 with
            | some rel =>
              let currentContent := rest2.take rel
              let indentation := wsHead line
              let indentedContent := applyIndent indentation content
              if currentContent ≠ indentedContent then { s1 with needsEdit := true }
              else s1
            | none => { s1 with needsEdit := true }
          else { s1 with needsEdit := true }

/-- The scan loop of `processDocument`, one line at a time. -/
def scanGo (env : ProcEnv) (lines0 : List (List Char)) :
    Nat → List (List Char) → ScanState → ScanState
  | _, [], s => s
  | i, line :: rest, s => scanGo env lines0 (i + 1) rest (scanLine env lines0 i line rest s)

/-- Initial scan state: fresh include map, no issues, no edits needed. -/
def initScan : ScanState := ⟨[], false, 0, 0, []⟩

/-- The scan phase of `DocumentProcessor.processDocument`. -/
def scanDocument (env : ProcEnv) (lines : List (List Char)) : ScanState :=
  scanGo env lines 0 lines initScan

/-- State threaded through the update loop of `updateDocument`: the tracking
copy of the document lines, the running line offset, the number of workspace
edits applied, a trace of (original line, target line, line delta) for each
applied edit, and a flag recording that the loop body threw (aborting the
remaining entries, as an exception reaching the catch block does). -/
structure UpdState where
  currentLines : List (List Char)
  lineOffset : Int
  edits : Nat
  trace : List (Nat × Int × Int)
  threw : Bool

/-- Body of the update loop of `updateDocument` for one include-map entry.
List splices mirror the source's range replacements: the replacement string
built as start marker, content and end marker (each newline-terminated)
splits into exactly `indStart :: indentedContent ++ [indEnd]` after the
trailing empty fragment is popped.  An adjusted index that is negative makes
the source read `undefined` and throw on the subsequent `.match`, which the
`threw` flag records. -/
def updateStep (env : ProcEnv) (s : UpdState) (e : Nat × List (List Char)) : UpdState :=
  if s.threw then s else
  let lineNumber := e.1
  let content := e.2
  let adjusted : Int := (lineNumber : Int) + s.lineOffset
  if (s.currentLines.length : Int) ≤ adjusted then s
  else if adjusted < 0 then { s with threw := true }
  else
    let a := adjusted.toNat
    let includeLine := s.currentLines.getD a []
    let indentation := wsHead includeLine
    let indentedContent := neutralizeContent env.L (applyIndent indentation content)
    let includePath := (matchIncludePath includeLine).getD []
    let resolvedPath := resolveIncludePath env.pm env.docPath includePath
    let cas := env.ctx s.currentLines a includeLine (some resolvedPath)
    let indStart := indentation ++ cas.startMarkerTemplate
    let indEnd := indentation ++ cas.endMarkerTemplate
    let next := a + 1
    if s.currentLines.length ≤ next then s
    else
      let nextTrim := trimWS (s.currentLines.getD next [])
      if nextTrim = trimWS cas.startMarkerTemplate ∨
         nextTrim = trimWS env.L.startMarkerTemplate then
        match findFirstEndRel (trimWS cas.endMarkerTemplate)
            (trimWS env.L.endMarkerTemplate) (s.currentLines.drop (next + 1)) with
        | some rel =>
          let endLine := next + 1 + rel
          let newContentLines := indStart :: indentedContent ++ [indEnd]
          let oldCount := endLine + 1 - next
          let delta : Int := (newContentLines.length : Int) - (oldCount : Int)
          { currentLines := s.currentLines.take next ++ newContentLines ++
              s.currentLines.drop (endLine + 1),
            lineOffset := s.lineOffset + delta,
            edits := s.edits + 1,
            trace := s.trace ++ [(lineNumber, adjusted, delta)],
            threw := false }
        | none =>
          let maxLines := min s.currentLines.length (next + 20)
          let replacementEndLine :=
            if maxLines ≤ next + 1 then next + 1
            else
              match ((s.currentLines.drop (next + 1)).take (maxLines - (next + 1))).findIdx?
                  (fun l => (cas.pattern l).isSome) with
              | some k => next + 1 + k
              | none => maxLines - 1
          let newContentLines := indStart :: indentedContent ++ [indEnd]
          let oldCount := replacementEndLine - next
          let delta : Int := (newContentLines.length : Int) - (oldCount : Int)
          { currentLines := s.currentLines.take next ++ newContentLines ++
              s.currentLines.drop replacementEndLine,
            lineOffset := s.lineOffset + delta,
            edits := s.edits + 1,
            trace := s.trace ++ [(lineNumber, adjusted, delta)],
            threw := false }
      else
        let insLines := indStart :: indentedContent ++ [indEnd]
        { currentLines := s.currentLines.take (a + 1) ++ insLines ++
            s.currentLines.drop (a + 1),
          lineOffset := s.lineOffset + (insLines.length : Int),
          edits := s.edits + 1,
          trace := s.trace ++ [(lineNumber, adjusted, (insLines.length : Int))],
          threw := false }

/-- The update loop over sorted include-map entries. -/
def updateGo (env : ProcEnv) : List (Nat × List (List Char)) → UpdState → UpdState
  | [], s => s
  | e :: es, s => updateGo env es (updateStep env s e)

/-- The ascending sort by original line number applied to the include-map
entries before processing. -/
def sortEntries (l : List (Nat × List (List Char))) : List (Nat × List (List Char)) :=
  l.insertionSort (fun a b => a.1 ≤ b.1)

/-- `DocumentProcessor.updateDocument`, document-side behavior. -/
def updateDocument (env : ProcEnv) (lines : List (List Char))
    (entries : List (Nat × List (List Char))) : UpdState :=
  updateGo env (sortEntries entries) ⟨lines, 0, 0, [], false⟩

/-- Result of one full processing pass over a document. -/
structure PassResult where
  lines : List (List Char)
  edits : Nat
  needsEdit : Bool
  threw : Bool

/-- One full pass of `DocumentProcessor.processDocument`: scan, then update
exactly when the scan requested it. -/
def processPass (env : ProcEnv) (lines : List (List Char)) : PassResult :=
  let sc := scanDocument env lines
  if sc.needsEdit then
    let u := updateDocument env lines sc.includeMap
    ⟨u.currentLines, u.edits, true, u.threw⟩
  else ⟨lines, 0, false, false⟩

/-!
The manager-visible state: the source-to-documents mapping and the
programmatic-update gate of `VirtualIncludeManager`.
-/

/-- Manager state shared across passes. -/
structure MgrState where
  sourceToDocuments : List (List Char × List (List Char))
  isPerformingUpdate : Bool

/-- Association-list membership test for the mapping. -/
def smHas (m : List (List Char × List (List Char))) (p : List Char) : Bool :=
  m.any (fun e => e.1 = p)

/-- The set of document keys associated with source path `p`. -/
def smGet (m : List (List Char × List (List Char))) (p : List Char) :
    List (List Char) :=
  ((m.find? (fun e => e.1 = p)).map (fun e => e.2)).getD []

/-- Set-insert of a document key into the set of path `p`. -/
def smAddKey (m : List (List Char × List (List Char))) (p k : List Char) :
    List (List Char × List (List Char)) :=
  m.map (fun e => if e.1 = p then (e.1, if e.2.contains k then e.2 else e.2 ++ [k]) else e)

/-- Lines 123-131 of processDocument: create the set for an unseen source
path, then add the including document's key. -/
def addSourceDoc (m : List (List Char × List (List Char))) (p k : List Char) :
    List (List Char × List (List Char)) :=
  let m1 := if smHas m p then m else m ++ [(p, [])]
  smAddKey m1 p k

/-- Effect of a (re)scan of a document on the source-to-documents mapping:
each resolved source path of the scan gets the document's key added.
`processDocument` performs no removal on this mapping. -/
def processDocMgr (env : ProcEnv) (mgr : MgrState) (lines : List (List Char)) : MgrState :=
  let sc := scanDocument env lines
  { mgr with sourceToDocuments :=
      sc.sources.foldl (fun m p => addSourceDoc m p env.docKey) mgr.sourceToDocuments }

/-- `DocumentProcessor.updateDocument` including its gate management: the
try block first sets the gate, then either returns early (invalid editor) or
runs the loop (which may record a thrown exception, handled by the catch
block); the finally block resets the gate on every one of these paths. -/
def updateDocumentMgr (env : ProcEnv) (editorValid : Bool) (lines : List (List Char))
    (entries : List (Nat × List (List Char))) (mgr : MgrState) : MgrState × UpdState :=
  let mgrIn : MgrState := { mgr with isPerformingUpdate := true }
  if editorValid = false then
    ({ mgrIn with isPerformingUpdate := false }, ⟨lines, 0, 0, [], false⟩)
  else
    let u := updateDocument env lines entries
    ({ mgrIn with isPerformingUpdate := false }, u)

/-!
Characterization functions: closed forms of the scan loop's effects, proved
equal to the fold below; and the block decomposition used to state the
idempotence and round-trip properties.
-/

/-- Result of the scan's directive processing for one line (context-aware
pattern, inline-override path extraction, self-include guard, file read),
exactly as lines 91-120 of processDocument perform it. -/
def hitCtx (env : ProcEnv) (lines0 : List (List Char)) (i : Nat)
    (line : List Char) : Option (List (List Char)) :=
  match (env.ctx lines0 i line none).pattern line with
  | none => none
  | some m1 =>
    let f := ((matchOverride line).map (fun p => p.1)).getD m1
    if isSelfInclude env.pm env.docPath f then none
    else env.fs (resolveIncludePath env.pm env.docPath f)

/-- Whether the scan rejects this line as a self-include. -/
def selfCtx (env : ProcEnv) (lines0 : List (List Char)) (i : Nat)
    (line : List Char) : Bool :=
  match (env.ctx lines0 i line none).pattern line with
  | none => false
  | some m1 =>
    isSelfInclude env.pm env.docPath (((matchOverride line).map (fun p => p.1)).getD m1)

/-- The resolved source path the scan records for this line, when it records
one. -/
def srcCtx (env : ProcEnv) (lines0 : List (List Char)) (i : Nat)
    (line : List Char) : Option (List Char) :=
  match (env.ctx lines0 i line none).pattern line with
  | none => none
  | some m1 =>
    let f := ((matchOverride line).map (fun p => p.1)).getD m1
    if isSelfInclude env.pm env.docPath f then none
    else
      let r := resolveIncludePath env.pm env.docPath f
      if (env.fs r).isSome then some r else none

/-- Closed form of the include map produced by scanning the given suffix
starting at line index `i`. -/
def hitsFrom (env : ProcEnv) (lines0 : List (List Char)) :
    Nat → List (List Char) → List (Nat × List (List Char))
  | _, [] => []
  | i, line :: rest =>
    match hitCtx env lines0 i line with
    | some c => (i, c) :: hitsFrom env lines0 (i + 1) rest
    | none => hitsFrom env lines0 (i + 1) rest

/-- Closed form of the number of self-include warnings over a suffix. -/
def selfCountFrom (env : ProcEnv) (lines0 : List (List Char)) :
    Nat → List (List Char) → Nat
  | _, [] => 0
  | i, line :: rest =>
    (if selfCtx env lines0 i line then 1 else 0) + selfCountFrom env lines0 (i + 1) rest

/-- Closed form of the source paths recorded over a suffix. -/
def srcsFrom (env : ProcEnv) (lines0 : List (List Char)) :
    Nat → List (List Char) → List (List Char)
  | _, [] => []
  | i, line :: rest =>
    match srcCtx env lines0 i line with
    | some r => r :: srcsFrom env lines0 (i + 1) rest
    | none => srcsFrom env lines0 (i + 1) rest

/-- The resolved path of the directive on this line, before the guard. -/
def dirPathOf (env : ProcEnv) (lines0 : List (List Char)) (i : Nat)
    (line : List Char) : Option (List Char) :=
  match (env.ctx lines0 i line none).pattern line with
  | none => none
  | some m1 =>
    some (resolveIncludePath env.pm env.docPath
      (((matchOverride line).map (fun p => p.1)).getD m1))

/-- Whether processing this line sets the scan's needs-edit flag, as a
function of the line and the suffix after it. -/
def lineNE (env : ProcEnv) (lines0 : List (List Char)) (i : Nat) (line : List Char)
    (rest : List (List Char)) : Bool :=
  match hitCtx env lines0 i line, dirPathOf env lines0 i line with
  | some content, some rp =>
    let cas2 := env.ctx lines0 i line (some rp)
    (match rest with
    | [] => true
    | nl :: rest2 =>
      if trimWS nl = trimWS env.L.startMarkerTemplate ∨
         trimWS nl = trimWS cas2.startMarkerTemplate then
        match findFirstEndRel (trimWS env.L.endMarkerTemplate)
            (trimWS cas2.endMarkerTemplate) rest2 with
        | some rel => decide (rest2.take rel ≠ applyIndent (wsHead line) content)
        | none => true
      else true)
  | _, _ => false

/-- Closed form of the scan's needs-edit flag over a suffix. -/
def scanNE (env : ProcEnv) (lines0 : List (List Char)) :
    Nat → List (List Char) → Bool
  | _, [] => false
  | i, line :: rest => lineNE env lines0 i line rest || scanNE env lines0 (i + 1) rest

/-- Context-independent form of `hitCtx`, applicable once the
context-resolution capability is the constant document-language settings. -/
def hitL (env : ProcEnv) (line : List Char) : Option (List (List Char)) :=
  match env.L.pattern line with
  | none => none
  | some m1 =>
    let f := ((matchOverride line).map (fun p => p.1)).getD m1
    if isSelfInclude env.pm env.docPath f then none
    else env.fs (resolveIncludePath env.pm env.docPath f)

/-- A line the scan passes over without recording an include: it either does
not match, is rejected as a self-include, or references a missing file. -/
def inertb (env : ProcEnv) (l : List Char) : Bool := (hitL env l).isNone

/-- Conditions on an included file's content under the indentation of its
directive: after indentation no line matches the document pattern (so
neutralization leaves it unchanged and later scans do not treat it as a
directive) and no line trims to the end-marker template (so the region's own
end marker is the first one found). -/
def contentWFb (env : ProcEnv) (ind : List Char) (c : List (List Char)) : Bool :=
  c.all (fun l =>
    let il := if l.length > 0 then ind ++ l else l
    (env.L.pattern il).isNone &&
    decide (¬ (trimWS il = trimWS env.L.endMarkerTemplate)))

/-- Block decomposition of a document: a line with no processable directive,
an unexpanded directive with the content of its (existing, non-self) source
file, or a directive followed by a complete existing region. -/
inductive Blk where
  | plain : List Char → Blk
  | unexp : List Char → List (List Char) → Blk
  | exp : List Char → List Char → List (List Char) → List Char → List (List Char) → Blk

/-- The document lines of one block. -/
def blkLines : Blk → List (List Char)
  | .plain l => [l]
  | .unexp dl _ => [dl]
  | .exp dl sl mid el _ => dl :: sl :: mid ++ [el]

/-- Flattening of a block list into a document. -/
def docOf (bs : List Blk) : List (List Char) := (bs.map blkLines).flatten

/-- The include-map entries the scan produces for a block list, with the
first block starting at absolute line `p`. -/
def entriesOf : Nat → List Blk → List (Nat × List (List Char))
  | _, [] => []
  | p, .plain _ :: bs => entriesOf (p + 1) bs
  | p, .unexp _ c :: bs => (p, c) :: entriesOf (p + 1) bs
  | p, .exp _ _ mid _ c :: bs => (p, c) :: entriesOf (p + (mid.length + 3)) bs

/-- The synchronized form of one block: directives become directive line,
fresh start marker, indented content, fresh end marker. -/
def normBlk (env : ProcEnv) : Blk → List (List Char)
  | .plain l => [l]
  | .unexp dl c =>
    dl :: (wsHead dl ++ env.L.startMarkerTemplate) ::
      applyIndent (wsHead dl) c ++ [wsHead dl ++ env.L.endMarkerTemplate]
  | .exp dl _ _ _ c =>
    dl :: (wsHead dl ++ env.L.startMarkerTemplate) ::
      applyIndent (wsHead dl) c ++ [wsHead dl ++ env.L.endMarkerTemplate]

/-- Flattening of the synchronized blocks. -/
def normDoc (env : ProcEnv) (bs : List Blk) : List (List Char) :=
  (bs.map (normBlk env)).flatten

/-- Number of directive blocks. -/
def dirCount : List Blk → Nat
  | [] => 0
  | .plain _ :: bs => dirCount bs
  | .unexp _ _ :: bs => 1 + dirCount bs
  | .exp _ _ _ _ _ :: bs => 1 + dirCount bs

/-- Well-formedness of one block given the first document line after it. -/
def blkWFb (env : ProcEnv) : Blk → Option (List Char) → Bool
  | .plain l, _ => inertb env l
  | .unexp dl c, nextLine? =>
    decide (hitL env dl = some c) &&
    (match nextLine? with
     | some nl => decide (¬ (trimWS nl = trimWS env.L.startMarkerTemplate))
     | none => false) &&
    contentWFb env (wsHead dl) c &&
    inertb env (wsHead dl ++ env.L.startMarkerTemplate) &&
    inertb env (wsHead dl ++ env.L.endMarkerTemplate)
  | .exp dl sl mid el c, _ =>
    decide (hitL env dl = some c) &&
    decide (trimWS sl = trimWS env.L.startMarkerTemplate) &&
    decide (trimWS el = trimWS env.L.endMarkerTemplate) &&
    mid.all (fun m => inertb env m &&
      decide (¬ (trimWS m = trimWS env.L.endMarkerTemplate))) &&
    inertb env sl && inertb env el &&
    contentWFb env (wsHead dl) c &&
    inertb env (wsHead dl ++ env.L.startMarkerTemplate) &&
    inertb env (wsHead dl ++ env.L.endMarkerTemplate)

/-- Well-formedness of a block list. -/
def blksWFb (env : ProcEnv) : List Blk → Bool
  | [] => true
  | b :: bs => blkWFb env b (docOf bs).head? && blksWFb env bs

/-- Stripping the directive's indentation from an extracted region line, as
the round-trip property describes. -/
def stripLine (ind l : List Char) : List Char :=
  if ind.isPrefixOf l then l.drop ind.length else l

/-- Stripping an indentation from every extracted line. -/
def stripIndent (ind : List Char) (c : List (List Char)) : List (List Char) :=
  c.map (stripLine ind)

/-- Sum of the line deltas of a trace of applied updates. -/
def sumDeltas (tr : List (Nat × Int × Int)) : Int :=
  (tr.map (fun t => t.2.2)).sum

/-- The offset-correctness predicate on a trace: starting from cumulative
delta `d`, each applied update targets its original line plus the cumulative
delta of the earlier ones. -/
def traceOKFrom : Int → List (Nat × Int × Int) → Prop
  | _, [] => True
  | d, t :: rest => t.2.1 = (t.1 : Int) + d ∧ traceOKFrom (d + t.2.2) rest

/-- Membership of a document key in a source path's associated set. -/
def smMem (m : List (List Char × List (List Char))) (p k : List Char) : Bool :=
  (smGet m p).contains k

/-!
Definitions for the language-rule precedence claim: the resolution chain
written as the specification words it (first match wins), and the
specification's reading of the section-override step (the nearest still
unclosed section start, scanning past nearer closed ones).
-/

/-- Rule source 1: the inline `with` override embedded in the directive. -/
def inlineRuleSpec (line : List Char) : Option LanguageSettings :=
  (getCommentStyleOverride line).map (fun tok => createDefaultSettings ⟨tok, []⟩)

/-- Rule source 2 as the code computes it: the section override. -/
def sectionRuleOfCode (cfg : Config) (doc : DocCtx) (ln : Nat) :
    Option LanguageSettings :=
  (getSectionOverride cfg doc ln).map (fun csTok => createDefaultSettings ⟨csTok, []⟩)

/-- Rule source 3: the language detected from the included file's extension. -/
def extensionRuleSpec (cfg : Config) (inc : Option (List Char)) :
    Option LanguageSettings :=
  (inc.bind (getLanguageFromExtension cfg)).map (getLanguageSettings cfg)

/-- The resolution chain in the specification's first-match-wins form, with
the code's section-override semantics. -/
def resolveRulesSpec (cfg : Config) (doc : DocCtx) (ln : Nat) (line : List Char)
    (inc : Option (List Char)) : LanguageSettings :=
  ((((inlineRuleSpec line).orElse
      (fun _ => sectionRuleOfCode cfg doc ln)).orElse
      (fun _ => extensionRuleSpec cfg inc)).getD
      (getLanguageSettings cfg doc.languageId))

/-- Backward scan for the claim's reading of the section override: the
nearest line hosting a relevant section start that is itself still unclosed,
scanning past nearer closed starts. -/
def sectionScanClaimAux (relevant : List SectionOverrideRule) (doc : DocCtx) (ln : Nat) :
    Nat → Option (List Char)
  | 0 =>
    (relevant.find? (fun o => o.patternTest (lineAt doc 0) &&
      ¬ closedBetween o doc 0 ln)).map (fun o => o.commentStyle)
  | Nat.succ k =>
    match relevant.find? (fun o => o.patternTest (lineAt doc (k + 1)) &&
        ¬ closedBetween o doc (k + 1) ln) with
    | some o => some o.commentStyle
    | none => sectionScanClaimAux relevant doc ln k

/-- The claim's reading of the section override step. -/
def sectionOverrideClaim (cfg : Config) (doc : DocCtx) (lineNumber : Nat) :
    Option (List Char) :=
  let overrides := builtInSectionOverrides ++ cfg.languageOverrides
  let relevant := overrides.filter (fun o => o.fileType = doc.languageId)
  if relevant.isEmpty then none
  else sectionScanClaimAux relevant doc lineNumber lineNumber

/-- The resolution chain with the claim's reading of the section step. -/
def claimResolveRules (cfg : Config) (doc : DocCtx) (ln : Nat) (line : List Char)
    (inc : Option (List Char)) : LanguageSettings :=
  ((((inlineRuleSpec line).orElse
      (fun _ => (sectionOverrideClaim cfg doc ln).map
        (fun csTok => createDefaultSettings ⟨csTok, []⟩))).orElse
      (fun _ => extensionRuleSpec cfg inc)).getD
      (getLanguageSettings cfg doc.languageId))

/-- Whether the scan reports a missing file for this line. -/
def errCtx (env : ProcEnv) (lines0 : List (List Char)) (i : Nat)
    (line : List Char) : Bool :=
  match (env.ctx lines0 i line none).pattern line with
  | none => false
  | some m1 =>
    let f := ((matchOverride line).map (fun p => p.1)).getD m1
    if isSelfInclude env.pm env.docPath f then false
    else (env.fs (resolveIncludePath env.pm env.docPath f)).isNone

/-- Closed form of the number of missing-file reports over a suffix. -/
def errCountFrom (env : ProcEnv) (lines0 : List (List Char)) :
    Nat → List (List Char) → Nat
  | _, [] => 0
  | i, line :: rest =>
    (if errCtx env lines0 i line then 1 else 0) + errCountFrom env lines0 (i + 1) rest

/-- Order instances for the entry sort used by `updateDocument`. -/
instance : IsTotal (Nat × List (List Char)) (fun a b => a.1 ≤ b.1) :=
  ⟨fun a b => Nat.le_total a.1 b.1⟩

instance : IsTrans (Nat × List (List Char)) (fun a b => a.1 ≤ b.1) :=
  ⟨fun _ _ _ h1 h2 => Nat.le_trans h1 h2⟩

/-!
Concrete instances used by witnesses and counterexamples: a python document
in directory `/d`, a POSIX-like path model, and small file systems.
-/

/-- Python comment style. -/
def csPy : CommentStyle := ⟨str "#", []⟩

/-- Default python language settings. -/
def Lpy : LanguageSettings := createDefaultSettings csPy

/-- A POSIX-like path model for the concrete instances. -/
def pmPosix : PathModel where
  isAbsolute := fun p => decide (p.head? = some '/')
  dirname := fun p => ((p.reverse.dropWhile (fun c => ¬ (c = '/'))).drop 1).reverse
  resolve := fun d p => d ++ ['/'] ++ p
  normalize := fun p => p
  isWin32 := false

/-- Environment of the concrete python document for a given file system,
with context resolution already constant at the document language. -/
def mkEnv (fs : List Char → Option (List (List Char))) : ProcEnv :=
  ⟨Lpy, fun _ _ _ _ => Lpy, fs, pmPosix, str "/d/doc.py", str "file:///d/doc.py"⟩

/-- File system holding `a.py` with plain one-line content. -/
def fsHello : List Char → Option (List (List Char)) :=
  fun p => if p = str "/d/a.py" then some [str "hello"] else none

/-- File system holding `a.py` whose content is itself a live directive. -/
def fsNest : List Char → Option (List (List Char)) :=
  fun p => if p = str "/d/a.py" then some [str "# virtualInclude \"b.py\""] else none

/-- File system with no files, for the stale-mapping instance. -/
def fsNone : List Char → Option (List (List Char)) := fun _ => none

/-- First user section-override of the two-override configuration. -/
def ovOne : SectionOverrideRule :=
  ⟨str "python", containsLit (str "SEC-ONE"), str "--", containsLit (str "CLOSE-ONE")⟩

/-- Second user section-override of the two-override configuration. -/
def ovTwo : SectionOverrideRule :=
  ⟨str "python", containsLit (str "SEC-TWO"), str ";;", containsLit (str "CLOSE-TWO")⟩

/-- Configuration with two user section-overrides for python documents. -/
def cfgTwo : Config := ⟨str "#", fun _ => none, true, [ovOne, ovTwo]⟩

/-- Python document whose nearest section start (line 1) is closed (line 2)
while an earlier section start (line 0) is still unclosed at line 3. -/
def docTwo : DocCtx :=
  ⟨str "python", [str "SEC-ONE", str "SEC-TWO", str "CLOSE-TWO", str "# x"]⟩

/-!
Theorems.  First the shared characterization lemmas of the scan and update
loops, then the claim theorems with their witnesses and counterexamples.
-/

/-- Closed form of one scan-loop iteration. -/
theorem scanLine_spec (env : ProcEnv) (l0 : List (List Char)) (i : Nat)
    (line : List Char) (rest : List (List Char)) (s : ScanState) :
    scanLine env l0 i line rest s =
      ⟨s.includeMap ++ ((hitCtx env l0 i line).map (fun c => [(i, c)])).getD [],
       s.needsEdit || lineNE env l0 i line rest,
       s.warnings + (if selfCtx env l0 i line then 1 else 0),
       s.errors + (if errCtx env l0 i line then 1 else 0),
       s.sources ++ ((srcCtx env l0 i line).map (fun r => [r])).getD []⟩ := by
  unfold scanLine hitCtx lineNE selfCtx errCtx srcCtx dirPathOf
  cases hm : (env.ctx l0 i line none).pattern line with
  | none => simp [hm]
  | some m1 =>
    simp only [hm]
    by_cases hs : isSelfInclude env.pm env.docPath
        (((matchOverride line).map (fun p => p.1)).getD m1)
    · simp [hitCtx, dirPathOf, hm, hs]
    · simp only [hm, hs, if_false, if_true, Bool.false_eq_true]
      cases hf : env.fs (resolveIncludePath env.pm env.docPath
          (((matchOverride line).map (fun p => p.1)).getD m1)) with
      | none => simp [hitCtx, dirPathOf, hm, hs, hf]
      | some content =>
        cases rest with
        | nil => simp [hitCtx, dirPathOf, hm, hs, hf]
        | cons nl rest2 =>
          by_cases hst : trimWS nl = trimWS env.L.startMarkerTemplate ∨
              trimWS nl = trimWS (env.ctx l0 i line (some (resolveIncludePath env.pm
                env.docPath (((matchOverride line).map (fun p => p.1)).getD m1)))).startMarkerTemplate
          · simp only [hst, if_true]
            cases he : findFirstEndRel (trimWS env.L.endMarkerTemplate)
                (trimWS (env.ctx l0 i line (some (resolveIncludePath env.pm
                  env.docPath (((matchOverride line).map (fun p => p.1)).getD m1)))).endMarkerTemplate)
                rest2 with
            | none => simp [hitCtx, dirPathOf, hm, hs, hf, hst, he]
            | some rel =>
              by_cases hC : rest2.take rel ≠ applyIndent (wsHead line) content
              · simp [hitCtx, dirPathOf, hm, hs, hf, hst, he, hC]
              · simp [hitCtx, dirPathOf, hm, hs, hf, hst, he, hC]
          · simp [hitCtx, dirPathOf, hm, hs, hf, hst]

/-- Closed form of the scan loop over a suffix. -/
theorem scanGo_spec (env : ProcEnv) (l0 : List (List Char)) :
    ∀ (rest : List (List Char)) (i : Nat) (s : ScanState),
    scanGo env l0 i rest s =
      ⟨s.includeMap ++ hitsFrom env l0 i rest,
       s.needsEdit || scanNE env l0 i rest,
       s.warnings + selfCountFrom env l0 i rest,
       s.errors + errCountFrom env l0 i rest,
       s.sources ++ srcsFrom env l0 i rest⟩ := by
  intro rest
  induction rest with
  | nil => intro i s; simp [scanGo, hitsFrom, scanNE, selfCountFrom, errCountFrom, srcsFrom]
  | cons line rest ih =>
    intro i s
    rw [scanGo, scanLine_spec, ih]
    cases hh : hitCtx env l0 i line with
    | none =>
      cases hr : srcCtx env l0 i line with
      | none =>
        simp [hitsFrom, scanNE, selfCountFrom, errCountFrom, srcsFrom, hh, hr,
          Bool.or_assoc, Nat.add_assoc]
      | some r =>
        simp [hitsFrom, scanNE, selfCountFrom, errCountFrom, srcsFrom, hh, hr,
          Bool.or_assoc, Nat.add_assoc]
    | some c =>
      cases hr : srcCtx env l0 i line with
      | none =>
        simp [hitsFrom, scanNE, selfCountFrom, errCountFrom, srcsFrom, hh, hr,
          Bool.or_assoc, Nat.add_assoc]
      | some r =>
        simp [hitsFrom, scanNE, selfCountFrom, errCountFrom, srcsFrom, hh, hr,
          Bool.or_assoc, Nat.add_assoc]

/-- Closed form of the scan phase of processDocument. -/
theorem scanDocument_spec (env : ProcEnv) (lines : List (List Char)) :
    scanDocument env lines =
      ⟨hitsFrom env lines 0 lines,
       scanNE env lines 0 lines,
       selfCountFrom env lines 0 lines,
       errCountFrom env lines 0 lines,
       srcsFrom env lines 0 lines⟩ := by
  rw [scanDocument, scanGo_spec]
  simp [initScan]

/-- A processable line has a pattern match. -/
theorem hitL_pattern_isSome (env : ProcEnv) (line : List Char)
    (c : List (List Char)) (h : hitL env line = some c) :
    ∃ m1, env.L.pattern line = some m1 := by
  unfold hitL at h
  cases hm : env.L.pattern line with
  | none => rw [hm] at h; exact absurd h (by simp)
  | some m1 => exact ⟨m1, rfl⟩

/-- With constant context resolution the scan's directive processing is
context-independent. -/
theorem hitCtx_const (env : ProcEnv) (h : env.ctx = fun _ _ _ _ => env.L)
    (l0 : List (List Char)) (i : Nat) (line : List Char) :
    hitCtx env l0 i line = hitL env line := by
  rw [hitCtx, hitL, h]

/-- A processable line has a resolved directive path. -/
theorem dirPathOf_const_isSome (env : ProcEnv) (h : env.ctx = fun _ _ _ _ => env.L)
    (l0 : List (List Char)) (i : Nat) (line : List Char) (c : List (List Char))
    (hh : hitL env line = some c) :
    (dirPathOf env l0 i line).isSome = true := by
  obtain ⟨m1, hm⟩ := hitL_pattern_isSome env line c hh
  rw [dirPathOf, h]
  simp [hm]

/-- A processable directive on the final line marks the document as needing
an edit. -/
theorem lineNE_lastline (env : ProcEnv) (h : env.ctx = fun _ _ _ _ => env.L)
    (l0 : List (List Char)) (i : Nat) (dl : List Char) (c : List (List Char))
    (hh : hitL env dl = some c) :
    lineNE env l0 i dl [] = true := by
  have h1 : hitCtx env l0 i dl = some c := by rw [hitCtx_const env h]; exact hh
  have h2 := dirPathOf_const_isSome env h l0 i dl c hh
  rw [lineNE, h1]
  cases h3 : dirPathOf env l0 i dl with
  | none => rw [h3] at h2; simp at h2
  | some rp => simp

/-- A document ending in a processable directive line scans as needing an
edit. -/
theorem scanNE_lastline (env : ProcEnv) (h : env.ctx = fun _ _ _ _ => env.L)
    (l0 : List (List Char)) (dl : List Char) (c : List (List Char))
    (hh : hitL env dl = some c) :
    ∀ (pre : List (List Char)) (i : Nat), scanNE env l0 i (pre ++ [dl]) = true := by
  intro pre
  induction pre with
  | nil =>
    intro i
    rw [List.nil_append, scanNE, lineNE_lastline env h l0 i dl c hh, Bool.true_or]
  | cons p ps ih =>
    intro i
    rw [List.cons_append, scanNE, ih (i + 1), Bool.or_true]

/-- One update-loop iteration either applies no edit (leaving trace and
offset unchanged) or appends one trace entry whose target is the original
line plus the current offset, advancing the offset by the entry's delta. -/
theorem updateStep_cases (env : ProcEnv) (s : UpdState) (e : Nat × List (List Char)) :
    ((updateStep env s e).trace = s.trace ∧ (updateStep env s e).lineOffset = s.lineOffset) ∨
    (∃ d, (updateStep env s e).trace = s.trace ++ [(e.1, (e.1 : Int) + s.lineOffset, d)] ∧
          (updateStep env s e).lineOffset = s.lineOffset + d) := by
  unfold updateStep
  dsimp only
  split
  · exact Or.inl ⟨rfl, rfl⟩
  split
  · exact Or.inl ⟨rfl, rfl⟩
  split
  · exact Or.inl ⟨rfl, rfl⟩
  split
  · exact Or.inl ⟨rfl, rfl⟩
  split
  · split
    · exact Or.inr ⟨_, rfl, rfl⟩
    · exact Or.inr ⟨_, rfl, rfl⟩
  · exact Or.inr ⟨_, rfl, rfl⟩

/-- Delta sum of a trace extended by one entry. -/
theorem sumDeltas_append_one (tr : List (Nat × Int × Int)) (t : Nat × Int × Int) :
    sumDeltas (tr ++ [t]) = sumDeltas tr + t.2.2 := by
  simp [sumDeltas]

/-- Offset-correctness is preserved when appending an entry targeted at its
original line plus the accumulated delta. -/
theorem traceOKFrom_append_one :
    ∀ (tr : List (Nat × Int × Int)) (d0 : Int) (t : Nat × Int × Int),
    traceOKFrom d0 tr → t.2.1 = (t.1 : Int) + (d0 + sumDeltas tr) →
    traceOKFrom d0 (tr ++ [t]) := by
  intro tr
  induction tr with
  | nil =>
    intro d0 t _ ht
    refine ⟨?_, trivial⟩
    simpa [sumDeltas] using ht
  | cons u tr ih =>
    intro d0 t h ht
    refine ⟨h.1, ih (d0 + u.2.2) t h.2 ?_⟩
    rw [ht]
    have : sumDeltas (u :: tr) = u.2.2 + sumDeltas tr := by simp [sumDeltas]
    rw [this]
    ring

/-- Invariant of the update loop: the trace stays offset-correct and its
original lines, followed by the keys still to process, stay strictly
ascending. -/
theorem updateGo_inv (env : ProcEnv) :
    ∀ (es : List (Nat × List (List Char))) (s : UpdState),
    traceOKFrom 0 s.trace → s.lineOffset = sumDeltas s.trace →
    List.Pairwise (fun a b => a < b)
      (s.trace.map (fun t => t.1) ++ es.map (fun e => e.1)) →
    traceOKFrom 0 (updateGo env es s).trace ∧
    List.Pairwise (fun a b => a < b) ((updateGo env es s).trace.map (fun t => t.1)) := by
  intro es
  induction es with
  | nil =>
    intro s h1 _ h3
    rw [updateGo]
    exact ⟨h1, by simpa using h3⟩
  | cons e es ih =>
    intro s h1 h2 h3
    rw [updateGo]
    rcases updateStep_cases env s e with ⟨htr, hoff⟩ | ⟨d, htr, hoff⟩
    · apply ih
      · rw [htr]; exact h1
      · rw [hoff, htr]; exact h2
      · rw [htr]
        refine List.Pairwise.sublist ?_ h3
        apply List.Sublist.append_left
        exact List.sublist_cons_self e.1 (es.map (fun e => e.1))
    · apply ih
      · rw [htr]
        apply traceOKFrom_append_one _ _ _ h1
        simp only [hoff]
        rw [h2]
        ring_nf
      · rw [hoff, htr, sumDeltas_append_one, h2]
      · rw [htr]
        simp only [List.map_append, List.map_cons, List.map_nil]
        rw [List.append_assoc]
        simpa using h3

/-- Updating a mapping entry preserves all keys of the association list. -/
theorem smAddKey_find (m : List (List Char × List (List Char))) (q k2 p : List Char) :
    (smAddKey m q k2).find? (fun e => e.1 = p) =
      ((m.find? (fun e => e.1 = p)).map
        (fun e => if e.1 = q then (e.1, if e.2.contains k2 then e.2 else e.2 ++ [k2]) else e)) := by
  rw [smAddKey, List.find?_map]
  have hfun : ((fun e : List Char × List (List Char) => decide (e.1 = p)) ∘
      (fun e : List Char × List (List Char) =>
        if e.1 = q then (e.1, if e.2.contains k2 then e.2 else e.2 ++ [k2]) else e)) =
      (fun e : List Char × List (List Char) => decide (e.1 = p)) := by
    funext e
    by_cases h : e.1 = q <;> simp [h]
  rw [show ((fun e : List Char × List (List Char) => decide (e.1 = p)) ∘
      (fun e : List Char × List (List Char) =>
        if e.1 = q then (e.1, if e.2.contains k2 then e.2 else e.2 ++ [k2]) else e)) =
      (fun e : List Char × List (List Char) => decide (e.1 = p)) from hfun]

/-- Adding an association never removes an existing one. -/
theorem smMem_addSourceDoc_mono (m : List (List Char × List (List Char)))
    (p k q k2 : List Char) (h : smMem m p k = true) :
    smMem (addSourceDoc m q k2) p k = true := by
  rw [smMem, smGet] at h
  cases hf : m.find? (fun e => e.1 = p) with
  | none => rw [hf] at h; simp at h
  | some e =>
    rw [hf] at h
    simp only [Option.map, Option.getD] at h
    have hf1 : (if smHas m q then m else m ++ [(q, [])]).find? (fun e => e.1 = p) = some e := by
      by_cases hq : smHas m q
      · rw [if_pos hq]; exact hf
      · rw [if_neg hq, List.find?_append, hf]; rfl
    rw [smMem, smGet, addSourceDoc]
    rw [smAddKey_find, hf1]
    by_cases he : e.1 = q
    · simp only [he, if_true, Option.map, Option.getD]
      by_cases hc : e.2.contains k
      · have hk : k ∈ e.2 := by simpa using hc
        split <;> simp [hk]
      · rw [h] at hc; exact absurd rfl hc
    · simp only [he, if_false, Option.map, Option.getD]
      exact h

/-- The association just added is present. -/
theorem smMem_addSourceDoc_self (m : List (List Char × List (List Char)))
    (p k : List Char) : smMem (addSourceDoc m p k) p k = true := by
  rw [smMem, smGet, addSourceDoc, smAddKey_find]
  by_cases hq : smHas m p
  · have hsome : (m.find? (fun e => e.1 = p)).isSome := by
      rw [List.find?_isSome]
      rw [smHas] at hq
      simpa using hq
    cases hf : m.find? (fun e => e.1 = p) with
    | none => rw [hf] at hsome; simp at hsome
    | some e =>
      have he : e.1 = p := by simpa using List.find?_some hf
      rw [if_pos hq, hf]
      simp only [he, if_true, Option.map, Option.getD]
      cases hcc : e.2.contains k with
      | true =>
        have hk : k ∈ e.2 := by simpa using hcc
        simp [hcc, hk]
      | false => simp [hcc]
  · have hf : m.find? (fun e => e.1 = p) = none := by
      rw [List.find?_eq_none]
      intro x hx
      simp only [decide_eq_true_iff]
      intro hx2
      apply hq
      rw [smHas]
      apply List.any_eq_true.mpr
      exact Exists.intro x (And.intro hx (by simp [hx2]))
    rw [if_neg hq, List.find?_append, hf]
    simp

/-- Folding additions over the recorded sources preserves associations. -/
theorem smMem_fold_mono (k0 : List Char) :
    ∀ (ps : List (List Char)) (m : List (List Char × List (List Char))) (p k : List Char),
    smMem m p k = true →
    smMem (ps.foldl (fun m q => addSourceDoc m q k0) m) p k = true := by
  intro ps
  induction ps with
  | nil => intro m p k h; exact h
  | cons q ps ih =>
    intro m p k h
    rw [List.foldl_cons]
    exact ih _ _ _ (smMem_addSourceDoc_mono _ _ _ _ _ h)

/-- Folding additions over the recorded sources adds the document key under
every recorded path. -/
theorem smMem_fold_self (k0 : List Char) :
    ∀ (ps : List (List Char)) (m : List (List Char × List (List Char))) (p : List Char),
    p ∈ ps →
    smMem (ps.foldl (fun m q => addSourceDoc m q k0) m) p k0 = true := by
  intro ps
  induction ps with
  | nil => intro m p h; simp at h
  | cons q ps ih =>
    intro m p hp
    rw [List.foldl_cons]
    rcases List.mem_cons.mp hp with h | h
    · subst h
      exact smMem_fold_mono k0 ps _ p k0 (smMem_addSourceDoc_self m p k0)
    · exact ih _ p h

/-- C1 (counterexample): for a region corrupted with a stray inner end
marker, one processing pass replaces only the span up to the first
end-marker line; the stray marker and the text before it survive, so the
region is not bounded at the last end marker and the whole span is not
replaced. -/
theorem c1_stray_end_marker_survives :
    (processPass (mkEnv fsHello)
      [str "# virtualInclude \"a.py\"", Lpy.startMarkerTemplate, str "old",
       Lpy.endMarkerTemplate, str "stray", Lpy.endMarkerTemplate]).lines =
      [str "# virtualInclude \"a.py\"", Lpy.startMarkerTemplate, str "hello",
       Lpy.endMarkerTemplate, str "stray", Lpy.endMarkerTemplate] ∧
    (processPass (mkEnv fsHello)
      [str "# virtualInclude \"a.py\"", Lpy.startMarkerTemplate, str "old",
       Lpy.endMarkerTemplate, str "stray", Lpy.endMarkerTemplate]).lines ≠
      [str "# virtualInclude \"a.py\"", Lpy.startMarkerTemplate, str "hello",
       Lpy.endMarkerTemplate] := by
  constructor
  · decide
  · decide

/-- C1 (amended): the end-marker search shared by the scan and the
synchronization pass bounds a region at the FIRST line equal (after
trimming) to an end-marker template: when it returns index `n`, line `n` is
an end-marker line and no earlier searched line is, so any later stray
end-marker lines are left outside the replaced span. -/
theorem c1_region_bounded_at_first_end_marker (t1 t2 : List Char) :
    ∀ (l : List (List Char)) (n : Nat), findFirstEndRel t1 t2 l = some n →
    n < l.length ∧ (trimWS (l.getD n []) = t1 ∨ trimWS (l.getD n []) = t2) ∧
    ∀ k, k < n → ¬ (trimWS (l.getD k []) = t1 ∨ trimWS (l.getD k []) = t2) := by
  intro l
  induction l with
  | nil => intro n h; simp [findFirstEndRel] at h
  | cons x rest ih =>
    intro n h
    rw [findFirstEndRel] at h
    by_cases hx : trimWS x = t1 ∨ trimWS x = t2
    · rw [if_pos hx] at h
      have hn : n = 0 := by simpa using h.symm
      subst hn
      exact ⟨Nat.succ_pos _, by simpa using hx, fun k hk => absurd hk (Nat.not_lt_zero k)⟩
    · rw [if_neg hx] at h
      cases hm : findFirstEndRel t1 t2 rest with
      | none => rw [hm] at h; simp at h
      | some m =>
        rw [hm] at h
        have hn : n = m + 1 := by simpa using h.symm
        subst hn
        obtain ⟨h1, h2, h3⟩ := ih m hm
        refine ⟨by simpa using Nat.succ_lt_succ h1, by simpa using h2, ?_⟩
        intro k hk
        cases k with
        | zero => simpa using hx
        | succ k2 =>
          have := h3 k2 (Nat.lt_of_succ_lt_succ hk)
          simpa using this

/-- Witness for the amended C1 theorem on a concrete suffix with two
end-marker lines: the search stops at the first one (index 1). -/
theorem c1_region_bounded_at_first_end_marker_witness :
    1 < ([str "x", Lpy.endMarkerTemplate, Lpy.endMarkerTemplate] : List (List Char)).length ∧
    (trimWS (([str "x", Lpy.endMarkerTemplate, Lpy.endMarkerTemplate] :
        List (List Char)).getD 1 []) = trimWS Lpy.endMarkerTemplate ∨
     trimWS (([str "x", Lpy.endMarkerTemplate, Lpy.endMarkerTemplate] :
        List (List Char)).getD 1 []) = trimWS Lpy.endMarkerTemplate) ∧
    ∀ k, k < 1 → ¬ (trimWS (([str "x", Lpy.endMarkerTemplate, Lpy.endMarkerTemplate] :
        List (List Char)).getD k []) = trimWS Lpy.endMarkerTemplate ∨
      trimWS (([str "x", Lpy.endMarkerTemplate, Lpy.endMarkerTemplate] :
        List (List Char)).getD k []) = trimWS Lpy.endMarkerTemplate) :=
  c1_region_bounded_at_first_end_marker (trimWS Lpy.endMarkerTemplate)
    (trimWS Lpy.endMarkerTemplate)
    [str "x", Lpy.endMarkerTemplate, Lpy.endMarkerTemplate] 1 (by decide)

/-- C2 (counterexample): document A (the python document of `mkEnv`) is
reprocessed with no remaining directive referencing `/d/s.py` (its text is
empty, so its scan records no includes at all), yet the source-to-documents
set of `/d/s.py` still contains A afterwards — the stale association is not
removed. -/
theorem c2_stale_association_persists :
    (scanDocument (mkEnv fsNone) []).includeMap = [] ∧
    smMem (processDocMgr (mkEnv fsNone)
        ⟨[(str "/d/s.py", [str "file:///d/doc.py"])], false⟩ []).sourceToDocuments
      (str "/d/s.py") (str "file:///d/doc.py") = true := by
  constructor
  · rfl
  · decide

/-- C2 (amended): a (re)scan of a document only grows the source-to-documents
mapping: every association present before is still present after, and the
document's key is added under every source path the scan records; no
association is removed until the whole manager is disposed. -/
theorem c2_mapping_only_grows (env : ProcEnv) (mgr : MgrState)
    (lines : List (List Char)) :
    (∀ p k, smMem mgr.sourceToDocuments p k = true →
       smMem (processDocMgr env mgr lines).sourceToDocuments p k = true) ∧
    (∀ p, p ∈ (scanDocument env lines).sources →
       smMem (processDocMgr env mgr lines).sourceToDocuments p env.docKey = true) := by
  constructor
  · intro p k h
    exact smMem_fold_mono env.docKey _ _ _ _ h
  · intro p hp
    exact smMem_fold_self env.docKey _ _ _ hp

/-- Witness for the amended C2 theorem: after scanning a concrete document
that includes `a.py`, the mapping holds the document's key under the
resolved source path. -/
theorem c2_mapping_only_grows_witness :
    smMem (processDocMgr (mkEnv fsHello) ⟨[], false⟩
        [str "# virtualInclude \"a.py\"", str "t"]).sourceToDocuments
      (str "/d/a.py") (str "file:///d/doc.py") = true :=
  (c2_mapping_only_grows (mkEnv fsHello) ⟨[], false⟩
    [str "# virtualInclude \"a.py\"", str "t"]).2 (str "/d/a.py") (by decide)

/-- C3 (counterexample): a document whose single directive includes a file
that itself contains a live directive line is edited again on the second
pass: the first pass inserts the neutralized content, and the second pass's
staleness comparison checks the region against the raw (un-neutralized)
content, finds a difference, and applies another edit. -/
theorem c3_nested_include_reedits :
    (processPass (mkEnv fsNest)
      (processPass (mkEnv fsNest)
        [str "# virtualInclude \"a.py\"", str "t"]).lines).edits ≠ 0 := by
  decide

/-- C4: the scan emits exactly one warning per self-include directive line,
never records such a line in the include map (the map holds exactly the
non-self directives whose files exist), and keeps scanning the remaining
lines. -/
theorem c4_self_include_guard (env : ProcEnv) (lines : List (List Char)) :
    (scanDocument env lines).warnings = selfCountFrom env lines 0 lines ∧
    (scanDocument env lines).includeMap = hitsFrom env lines 0 lines ∧
    ∀ i line, selfCtx env lines i line = true → hitCtx env lines i line = none := by
  refine ⟨?_, ?_, ?_⟩
  · rw [scanDocument_spec]
  · rw [scanDocument_spec]
  · intro i line hs
    rw [selfCtx] at hs
    rw [hitCtx]
    cases hm : (env.ctx lines i line none).pattern line with
    | none => rfl
    | some m1 =>
      rw [hm] at hs
      simp only [hm]
      rw [if_pos hs]

/-- Witness for C4: the concrete self-include line is rejected (recorded in
no include map). -/
theorem c4_self_include_guard_witness :
    hitCtx (mkEnv fsHello) [str "# virtualInclude \"doc.py\""] 0
      (str "# virtualInclude \"doc.py\"") = none :=
  (c4_self_include_guard (mkEnv fsHello) [str "# virtualInclude \"doc.py\""]).2.2 0
    (str "# virtualInclude \"doc.py\"") (by decide)

/-- C5: within one synchronization pass the applied updates carry strictly
ascending original line numbers, and each applied update's target line is
its original line plus the cumulative line delta of the earlier applied
updates of the same pass. -/
theorem c5_updates_in_order_with_offsets (env : ProcEnv) (lines : List (List Char))
    (entries : List (Nat × List (List Char)))
    (hnd : List.Pairwise (fun a b => a.1 ≠ b.1) entries) :
    traceOKFrom 0 (updateDocument env lines entries).trace ∧
    List.Pairwise (fun a b => a.1 < b.1) (updateDocument env lines entries).trace := by
  have hsorted : (sortEntries entries).Sorted (fun a b => a.1 ≤ b.1) :=
    List.sorted_insertionSort _ entries
  have hperm : List.Perm (sortEntries entries) entries := List.perm_insertionSort _ entries
  have hnd2 : (sortEntries entries).Pairwise (fun a b => a.1 ≠ b.1) :=
    (hperm.pairwise_iff (fun h => h.symm)).mpr hnd
  have hlt : (sortEntries entries).Pairwise (fun a b => a.1 < b.1) := by
    have hand := hsorted.and hnd2
    exact hand.imp (fun h => lt_of_le_of_ne h.1 h.2)
  have h3 : List.Pairwise (fun a b => a < b)
      ((⟨lines, 0, 0, [], false⟩ : UpdState).trace.map (fun t => t.1) ++
        (sortEntries entries).map (fun e => e.1)) := by
    simpa [List.pairwise_map] using hlt
  have hmain := updateGo_inv env (sortEntries entries) ⟨lines, 0, 0, [], false⟩
    trivial (by simp [sumDeltas]) h3
  refine ⟨hmain.1, ?_⟩
  have hp2 := hmain.2
  rw [List.pairwise_map] at hp2
  exact hp2

/-- Witness for C5: a document with two directives where the first insertion
adds 3 lines; the second update is applied at line 1 + 3 = 4, as the
concrete trace shows. -/
theorem c5_updates_in_order_with_offsets_witness :
    (traceOKFrom 0 (updateDocument (mkEnv fsHello)
        [str "# virtualInclude \"a.py\"", str "# virtualInclude \"a.py\"", str "t"]
        [(0, [str "hello"]), (1, [str "hello"])]).trace ∧
     List.Pairwise (fun a b => a.1 < b.1) (updateDocument (mkEnv fsHello)
        [str "# virtualInclude \"a.py\"", str "# virtualInclude \"a.py\"", str "t"]
        [(0, [str "hello"]), (1, [str "hello"])]).trace) ∧
    (updateDocument (mkEnv fsHello)
        [str "# virtualInclude \"a.py\"", str "# virtualInclude \"a.py\"", str "t"]
        [(0, [str "hello"]), (1, [str "hello"])]).trace =
      [(0, 0, 3), (1, 4, 3)] :=
  ⟨c5_updates_in_order_with_offsets (mkEnv fsHello)
      [str "# virtualInclude \"a.py\"", str "# virtualInclude \"a.py\"", str "t"]
      [(0, [str "hello"]), (1, [str "hello"])] (by decide),
   by decide⟩

/-- C6 (counterexample): with a single directive whose source file content C
is itself a live directive line, the pass inserts the neutralized rewrite of
C rather than C: the document after one pass does not contain C between the
markers, and extracting the region and stripping the indentation does not
yield C. -/
theorem c6_roundtrip_fails_on_nested_directive :
    (processPass (mkEnv fsNest) [str "# virtualInclude \"a.py\"", str "t"]).lines ≠
      [str "# virtualInclude \"a.py\"", Lpy.startMarkerTemplate,
       str "# virtualInclude \"b.py\"", Lpy.endMarkerTemplate, str "t"] ∧
    stripIndent (wsHead (str "# virtualInclude \"a.py\""))
      (((processPass (mkEnv fsNest)
          [str "# virtualInclude \"a.py\"", str "t"]).lines.drop 2).take 1) ≠
      [str "# virtualInclude \"b.py\""] := by
  constructor
  · decide
  · decide

/-- C7 (counterexample): neutralization applied to its own output is not the
identity: on a line carrying two live directives the first application
rewrites only the first one (the replace is non-global), and a second
application rewrites the remaining live directive, changing the line again. -/
theorem c7_neutralization_not_idempotent :
    neutralizeContent Lpy (neutralizeContent Lpy
      [str "# virtualInclude \"a\" # virtualInclude \"b\""]) ≠
    neutralizeContent Lpy [str "# virtualInclude \"a\" # virtualInclude \"b\""] := by
  decide

/-- C7 (amended): neutralization is idempotent on content each of whose
lines, after one application, either trims to a marker template or no longer
matches the include-directive pattern — in particular on content whose lines
carry at most one live directive, since the inert spelling
`virtualInclude-nested` is never matched again.  Marker lines always pass
through unmodified by the first branch of `neutralizeLine`. -/
theorem c7_neutralization_idempotent_on_stable_content (L : LanguageSettings)
    (c : List (List Char))
    (h : ∀ l ∈ c, (trimWS (neutralizeLine L l) = trimWS L.startMarkerTemplate ∨
                   trimWS (neutralizeLine L l) = trimWS L.endMarkerTemplate) ∨
                  (L.pattern (neutralizeLine L l)).isNone = true) :
    neutralizeContent L (neutralizeContent L c) = neutralizeContent L c := by
  simp only [neutralizeContent, List.map_map]
  apply List.map_congr_left
  intro l hl
  show neutralizeLine L (neutralizeLine L l) = neutralizeLine L l
  rcases h l hl with hm | hp
  · rw [neutralizeLine]
    rw [if_pos hm]
  · rw [neutralizeLine]
    by_cases hm2 : trimWS (neutralizeLine L l) = trimWS L.startMarkerTemplate ∨
        trimWS (neutralizeLine L l) = trimWS L.endMarkerTemplate
    · rw [if_pos hm2]
    · rw [if_neg hm2]
      have hfalse : (L.pattern (neutralizeLine L l)).isSome = false := by
        cases hq : L.pattern (neutralizeLine L l) with
        | none => rfl
        | some v => rw [hq] at hp; simp at hp
      rw [hfalse]
      simp

/-- Witness for the amended C7 theorem: content holding an
already-neutralized directive, a marker line and a plain line is a fixpoint
of a further neutralization. -/
theorem c7_neutralization_idempotent_witness :
    neutralizeContent Lpy (neutralizeContent Lpy
      [str "# virtualInclude-nested (edit source file to modify) \"b.py\"",
       Lpy.startMarkerTemplate, str "x = 1"]) =
    neutralizeContent Lpy
      [str "# virtualInclude-nested (edit source file to modify) \"b.py\"",
       Lpy.startMarkerTemplate, str "x = 1"] :=
  c7_neutralization_idempotent_on_stable_content Lpy
    [str "# virtualInclude-nested (edit source file to modify) \"b.py\"",
     Lpy.startMarkerTemplate, str "x = 1"] (by decide)

/-- C8 (counterexample): with two configured overrides for the same language,
a document whose nearest section start is already closed while an earlier
start is still unclosed resolves (in the code) to the document default, not
to the style of the nearest unclosed section start that the claim describes:
the two resolutions produce different start markers. -/
theorem c8_nearest_unclosed_reading_fails :
    (getContextAwareSettings cfgTwo docTwo 3 (str "# x") none).startMarkerTemplate ≠
    (claimResolveRules cfgTwo docTwo 3 (str "# x") none).startMarkerTemplate := by
  decide

/-- C8 (amended): language-rule resolution follows the fixed first-match-wins
precedence — inline `with` override, then the section override (taken from
the nearest section start found scanning backward, and only when that start
is still unclosed; nearer closed starts end the search), then the language
detected from the included file's extension when detection is enabled and a
path is known, then the document language's settings with the configured
default comment style for unrecognized languages. -/
theorem c8_resolution_precedence (cfg : Config) (doc : DocCtx) (ln : Nat)
    (line : List Char) (inc : Option (List Char)) :
    getContextAwareSettings cfg doc ln line inc = resolveRulesSpec cfg doc ln line inc := by
  rw [getContextAwareSettings, resolveRulesSpec, inlineRuleSpec, sectionRuleOfCode,
    extensionRuleSpec]
  cases h1 : getCommentStyleOverride line with
  | some tok => simp [h1]
  | none =>
    cases h2 : getSectionOverride cfg doc ln with
    | some csTok => simp [h1, h2]
    | none =>
      cases h3 : inc.bind (getLanguageFromExtension cfg) with
      | some lang => simp [h1, h2, h3]
      | none => simp [h1, h2, h3]

/-- C9: the programmatic-update gate is false after `updateDocument` returns
on every exit path: the early return when the editor is no longer valid, the
path on which the loop body threw (recorded in the result), and normal
completion. -/
theorem c9_gate_reset_on_all_paths (env : ProcEnv) (editorValid : Bool)
    (lines : List (List Char)) (entries : List (Nat × List (List Char)))
    (mgr : MgrState) :
    (updateDocumentMgr env editorValid lines entries mgr).1.isPerformingUpdate = false := by
  unfold updateDocumentMgr
  cases editorValid <;> simp

/-- C10: a processable directive on the final line of a document is
classified by the scan as needing expansion, yet the update pass applies no
edit for it: the bounds check on the line after the directive skips the
entry, leaving the document unchanged with zero edits and an empty trace. -/
theorem c10_lastline_directive_no_edit (env : ProcEnv)
    (hctx : env.ctx = fun _ _ _ _ => env.L)
    (pre : List (List Char)) (dl : List Char) (c : List (List Char))
    (hh : hitL env dl = some c) :
    (scanDocument env (pre ++ [dl])).needsEdit = true ∧
    updateDocument env (pre ++ [dl]) [((pre ++ [dl]).length - 1, c)] =
      ⟨pre ++ [dl], 0, 0, [], false⟩ := by
  constructor
  · rw [scanDocument_spec]
    exact scanNE_lastline env hctx (pre ++ [dl]) dl c hh pre 0
  · have hs : sortEntries [((pre ++ [dl]).length - 1, c)] =
        [((pre ++ [dl]).length - 1, c)] := by
      simp [sortEntries, List.insertionSort, List.orderedInsert]
    rw [updateDocument, hs, updateGo, updateGo, updateStep]
    have hlen : (pre ++ [dl]).length = pre.length + 1 := by simp
    simp only [hlen]
    norm_num

/-- Witness for C10 on a concrete two-line document ending in a directive. -/
theorem c10_lastline_directive_no_edit_witness :
    (scanDocument (mkEnv fsHello) ([str "x"] ++ [str "# virtualInclude \"a.py\""])).needsEdit = true ∧
    updateDocument (mkEnv fsHello) ([str "x"] ++ [str "# virtualInclude \"a.py\""])
      [(([str "x"] ++ [str "# virtualInclude \"a.py\""]).length - 1, [str "hello"])] =
      ⟨[str "x"] ++ [str "# virtualInclude \"a.py\""], 0, 0, [], false⟩ :=
  c10_lastline_directive_no_edit (mkEnv fsHello) rfl [str "x"]
    (str "# virtualInclude \"a.py\"") [str "hello"] (by decide)

end VInc

namespace VInc

theorem dropWhile_ws_prepend (w : List Char) (l : List Char)
    (h : ∀ c ∈ w, isWS c = true) :
    (w ++ l).dropWhile isWS = l.dropWhile isWS := by
  induction w with
  | nil => rfl
  | cons c w ih =>
    rw [List.cons_append, List.dropWhile_cons]
    rw [h c (List.mem_cons_self c w)]
    simp only [if_true]
    exact ih (fun d hd => h d (List.mem_cons_of_mem c hd))

theorem trimWS_ws_prepend (w l : List Char) (h : ∀ c ∈ w, isWS c = true) :
    trimWS (w ++ l) = trimWS l := by
  rw [trimWS, trimWS, dropWhile_ws_prepend w l h]

theorem wsHead_all_ws (l : List Char) : ∀ c ∈ wsHead l, isWS c = true := by
  intro c hc
  exact List.mem_takeWhile_imp hc

theorem trimWS_indent (ind : List Char) (hind : ∀ c ∈ ind, isWS c = true)
    (l : List Char) : trimWS (ind ++ l) = trimWS l :=
  trimWS_ws_prepend ind l hind

theorem findFirstEndRel_mid (t1 t2 : List Char) :
    ∀ (mid : List (List Char)) (el : List Char) (tail : List (List Char)),
    (∀ m ∈ mid, ¬(trimWS m = t1 ∨ trimWS m = t2)) →
    (trimWS el = t1 ∨ trimWS el = t2) →
    findFirstEndRel t1 t2 (mid ++ el :: tail) = some mid.length := by
  intro mid
  induction mid with
  | nil =>
    intro el tail _ hel
    rw [List.nil_append, findFirstEndRel, if_pos hel]
    rfl
  | cons m mid ih =>
    intro el tail hmid hel
    rw [List.cons_append, findFirstEndRel,
      if_neg (hmid m (List.mem_cons_self m mid))]
    rw [ih el tail (fun x hx => hmid x (List.mem_cons_of_mem m hx)) hel]
    rfl

theorem applyIndent_length (ind : List Char) (c : List (List Char)) :
    (applyIndent ind c).length = c.length := by
  simp [applyIndent]

theorem neutralizeContent_id_of_wf (env : ProcEnv) (ind : List Char)
    (c : List (List Char)) (h : contentWFb env ind c = true) :
    neutralizeContent env.L (applyIndent ind c) = applyIndent ind c := by
  rw [neutralizeContent, applyIndent, List.map_map]
  apply List.map_congr_left
  intro l hl
  simp only [Function.comp]
  rw [contentWFb, List.all_eq_true] at h
  have hcond := h l hl
  simp only [Bool.and_eq_true] at hcond
  rw [neutralizeLine]
  by_cases hm : trimWS (if l.length > 0 then ind ++ l else l) =
        trimWS env.L.startMarkerTemplate ∨
      trimWS (if l.length > 0 then ind ++ l else l) = trimWS env.L.endMarkerTemplate
  · rw [if_pos hm]
  · rw [if_neg hm]
    have : (env.L.pattern (if l.length > 0 then ind ++ l else l)).isSome = false := by
      have := hcond.1
      cases hq : env.L.pattern (if l.length > 0 then ind ++ l else l) with
      | none => rfl
      | some v => rw [hq] at this; simp at this
    rw [this]
    simp

theorem getD_append_len_plus (A : List (List Char)) :
    ∀ (B : List (List Char)) (k : Nat),
    (A ++ B).getD (A.length + k) [] = B.getD k [] := by
  intro B k
  rw [List.getD_append_right]
  · congr 1
    omega
  · omega

theorem take_append_exact (A : List (List Char)) (B : List (List Char)) :
    (A ++ B).take A.length = A := List.take_left A B

theorem drop_append_exact (A : List (List Char)) (B : List (List Char)) :
    (A ++ B).drop A.length = B := List.drop_left A B

end VInc

namespace VInc

theorem updateStep_insert (env : ProcEnv) (hctx : env.ctx = fun _ _ _ _ => env.L)
    (A : List (List Char)) (dl nl : List Char) (D : List (List Char))
    (c : List (List Char)) (p : Nat) (δ : Int) (ed : Nat) (tr : List (Nat × Int × Int))
    (hA : (A.length : Int) = (p : Int) + δ)
    (hnl : ¬ (trimWS nl = trimWS env.L.startMarkerTemplate))
    (hcwf : contentWFb env (wsHead dl) c = true) :
    updateStep env ⟨A ++ dl :: nl :: D, δ, ed, tr, false⟩ (p, c) =
      ⟨(A ++ [dl]) ++ ((wsHead dl ++ env.L.startMarkerTemplate) ::
          applyIndent (wsHead dl) c ++ [wsHead dl ++ env.L.endMarkerTemplate]) ++ nl :: D,
       δ + ((c.length + 2 : Nat) : Int), ed + 1,
       tr ++ [(p, (p : Int) + δ, ((c.length + 2 : Nat) : Int))], false⟩ := by
  have hlen : (A ++ dl :: nl :: D).length = A.length + (D.length + 2) := by
    simp only [List.length_append, List.length_cons]
  have h1 : ¬ (((A ++ dl :: nl :: D).length : Int) ≤ (A.length : Int)) := by
    rw [hlen]; push_cast; omega
  have h2 : ¬ ((A.length : Int) < 0) := by omega
  have h3 : ((A.length : Int)).toNat = A.length := Int.toNat_natCast A.length
  have h4 : (A ++ dl :: nl :: D).getD A.length [] = dl := by
    have := getD_append_len_plus A (dl :: nl :: D) 0
    simpa using this
  have h5 : ¬ ((A ++ dl :: nl :: D).length ≤ A.length + 1) := by
    rw [hlen]; omega
  have h6 : (A ++ dl :: nl :: D).getD (A.length + 1) [] = nl := by
    have := getD_append_len_plus A (dl :: nl :: D) 1
    simpa using this
  have h7 : (A ++ dl :: nl :: D).take (A.length + 1) = A ++ [dl] := by
    rw [List.append_cons]
    have he : (A ++ [dl]).length = A.length + 1 := by simp
    rw [← he, List.take_left]
  have h8 : (A ++ dl :: nl :: D).drop (A.length + 1) = nl :: D := by
    rw [List.append_cons]
    have he : (A ++ [dl]).length = A.length + 1 := by simp
    rw [← he, List.drop_left]
  rw [updateStep]
  dsimp only
  rw [← hA]
  rw [if_neg (by simp), if_neg h1, if_neg h2]
  rw [h3, h4, h6]
  simp only [hctx]
  rw [if_neg h5, if_neg (by intro hor; rcases hor with ho | ho <;> exact hnl ho)]
  rw [neutralizeContent_id_of_wf env (wsHead dl) c hcwf]
  rw [h7, h8, hA]
  have h9 : ((wsHead dl ++ env.L.startMarkerTemplate) :: applyIndent (wsHead dl) c ++
      [wsHead dl ++ env.L.endMarkerTemplate]).length = c.length + 2 := by
    simp [applyIndent_length]
  rw [h9]

end VInc

namespace VInc

theorem updateStep_replace (env : ProcEnv) (hctx : env.ctx = fun _ _ _ _ => env.L)
    (A : List (List Char)) (dl sl el : List Char) (mid D : List (List Char))
    (c : List (List Char)) (p : Nat) (δ : Int) (ed : Nat) (tr : List (Nat × Int × Int))
    (hA : (A.length : Int) = (p : Int) + δ)
    (hsl : trimWS sl = trimWS env.L.startMarkerTemplate)
    (hel : trimWS el = trimWS env.L.endMarkerTemplate)
    (hmid : ∀ m ∈ mid, ¬ (trimWS m = trimWS env.L.endMarkerTemplate))
    (hcwf : contentWFb env (wsHead dl) c = true) :
    updateStep env ⟨A ++ dl :: sl :: (mid ++ el :: D), δ, ed, tr, false⟩ (p, c) =
      ⟨(A ++ [dl]) ++ ((wsHead dl ++ env.L.startMarkerTemplate) ::
          applyIndent (wsHead dl) c ++ [wsHead dl ++ env.L.endMarkerTemplate]) ++ D,
       δ + (((c.length + 2 : Nat) : Int) - ((mid.length + 2 : Nat) : Int)), ed + 1,
       tr ++ [(p, (p : Int) + δ,
         ((c.length + 2 : Nat) : Int) - ((mid.length + 2 : Nat) : Int))], false⟩ := by
  have hlen : (A ++ dl :: sl :: (mid ++ el :: D)).length =
      A.length + (mid.length + D.length + 3) := by
    simp only [List.length_append, List.length_cons]
    omega
  have h1 : ¬ (((A ++ dl :: sl :: (mid ++ el :: D)).length : Int) ≤ (A.length : Int)) := by
    rw [hlen]; push_cast; omega
  have h2 : ¬ ((A.length : Int) < 0) := by omega
  have h3 : ((A.length : Int)).toNat = A.length := Int.toNat_natCast A.length
  have h4 : (A ++ dl :: sl :: (mid ++ el :: D)).getD A.length [] = dl := by
    have := getD_append_len_plus A (dl :: sl :: (mid ++ el :: D)) 0
    simpa using this
  have h5 : ¬ ((A ++ dl :: sl :: (mid ++ el :: D)).length ≤ A.length + 1) := by
    rw [hlen]; omega
  have h6 : (A ++ dl :: sl :: (mid ++ el :: D)).getD (A.length + 1) [] = sl := by
    have := getD_append_len_plus A (dl :: sl :: (mid ++ el :: D)) 1
    simpa using this
  have h7 : (A ++ dl :: sl :: (mid ++ el :: D)).drop (A.length + 1 + 1) =
      mid ++ el :: D := by
    have hre : A ++ dl :: sl :: (mid ++ el :: D) =
        (A ++ [dl] ++ [sl]) ++ (mid ++ el :: D) := by simp
    have he : (A ++ [dl] ++ [sl]).length = A.length + 1 + 1 := by simp
    rw [hre, ← he, List.drop_left]
  have hfe : findFirstEndRel (trimWS env.L.endMarkerTemplate)
      (trimWS env.L.endMarkerTemplate) (mid ++ el :: D) = some mid.length := by
    apply findFirstEndRel_mid
    · intro m hm
      intro hor
      rcases hor with ho | ho <;> exact hmid m hm ho
    · exact Or.inl hel
  have h8 : (A ++ dl :: sl :: (mid ++ el :: D)).take (A.length + 1) = A ++ [dl] := by
    have hre : A ++ dl :: sl :: (mid ++ el :: D) =
        (A ++ [dl]) ++ (sl :: (mid ++ el :: D)) := by simp
    have he : (A ++ [dl]).length = A.length + 1 := by simp
    rw [hre, ← he, List.take_left]
  have h9 : (A ++ dl :: sl :: (mid ++ el :: D)).drop (A.length + 1 + 1 + mid.length + 1) =
      D := by
    have hre : A ++ dl :: sl :: (mid ++ el :: D) =
        (A ++ [dl] ++ [sl] ++ mid ++ [el]) ++ D := by simp
    have he : (A ++ [dl] ++ [sl] ++ mid ++ [el]).length =
        A.length + 1 + 1 + mid.length + 1 := by
      simp
      omega
    rw [hre, ← he, List.drop_left]
  rw [updateStep]
  dsimp only
  rw [← hA]
  rw [if_neg (by simp), if_neg h1, if_neg h2]
  rw [h3, h4, h6]
  simp only [hctx]
  rw [if_neg h5, if_pos (Or.inl hsl)]
  rw [h7, hfe]
  dsimp only
  rw [neutralizeContent_id_of_wf env (wsHead dl) c hcwf]
  rw [h8, h9, hA]
  have h10 : ((wsHead dl ++ env.L.startMarkerTemplate) :: applyIndent (wsHead dl) c ++
      [wsHead dl ++ env.L.endMarkerTemplate]).length = c.length + 2 := by
    simp [applyIndent_length]
  rw [h10]
  have h11 : A.length + 1 + 1 + mid.length + 1 - (A.length + 1) = mid.length + 2 := by
    omega
  rw [h11]

end VInc

namespace VInc

theorem docOf_cons (b : Blk) (bs : List Blk) :
    docOf (b :: bs) = blkLines b ++ docOf bs := by
  simp [docOf]

theorem normDoc_cons (env : ProcEnv) (b : Blk) (bs : List Blk) :
    normDoc env (b :: bs) = normBlk env b ++ normDoc env bs := by
  simp [normDoc]

theorem updateGo_blocks (env : ProcEnv) (hctx : env.ctx = fun _ _ _ _ => env.L) :
    ∀ (bs : List Blk) (p : Nat) (A : List (List Char)) (δ : Int) (ed : Nat)
      (tr : List (Nat × Int × Int)),
    blksWFb env bs = true →
    (A.length : Int) = (p : Int) + δ →
    ∃ tr2, updateGo env (entriesOf p bs) ⟨A ++ docOf bs, δ, ed, tr, false⟩ =
      ⟨A ++ normDoc env bs,
       δ + (((normDoc env bs).length : Int) - ((docOf bs).length : Int)),
       ed + dirCount bs, tr2, false⟩ := by
  intro bs
  induction bs with
  | nil =>
    intro p A δ ed tr _ hA
    refine ⟨tr, ?_⟩
    show updateGo env (entriesOf p []) ⟨A ++ docOf [], δ, ed, tr, false⟩ = _
    rw [show entriesOf p [] = [] from rfl, updateGo]
    simp [docOf, normDoc, dirCount]
  | cons b bs ih =>
    intro p A δ ed tr hwf hA
    rw [blksWFb, Bool.and_eq_true] at hwf
    obtain ⟨hwf1, hwf2⟩ := hwf
    cases b with
    | plain l =>
      rw [show entriesOf p (Blk.plain l :: bs) = entriesOf (p + 1) bs from rfl]
      rw [docOf_cons]
      have hre : A ++ (blkLines (Blk.plain l) ++ docOf bs) = (A ++ [l]) ++ docOf bs := by
        simp [blkLines]
      rw [hre]
      have hA2 : (((A ++ [l]).length : Nat) : Int) = ((p + 1 : Nat) : Int) + δ := by
        simp only [List.length_append, List.length_cons, List.length_nil]
        push_cast
        omega
      obtain ⟨tr2, heq⟩ := ih (p + 1) (A ++ [l]) δ ed tr hwf2 hA2
      refine ⟨tr2, ?_⟩
      rw [heq]
      congr 1
      · rw [normDoc_cons]
        simp [normBlk]
      · simp only [List.length_append, blkLines, normBlk, normDoc_cons, docOf_cons,
          List.length_cons, List.length_nil]
        push_cast
        ring
    | unexp dl c =>
      simp only [blkWFb] at hwf1
      cases hd : (docOf bs).head? with
      | none =>
        rw [hd] at hwf1
        simp at hwf1
      | some nl =>
        rw [hd] at hwf1
        simp only [Bool.and_eq_true, decide_eq_true_eq] at hwf1
        obtain ⟨⟨⟨⟨hhit, hnl⟩, hcwf⟩, hinS⟩, hinE⟩ := hwf1
        cases hDs : docOf bs with
        | nil => rw [hDs] at hd; simp at hd
        | cons a D2 =>
          rw [hDs] at hd
          have ha : a = nl := by simpa using hd
          subst ha
          rw [show entriesOf p (Blk.unexp dl c :: bs) =
            (p, c) :: entriesOf (p + 1) bs from rfl]
          rw [docOf_cons, hDs]
          have hre : A ++ (blkLines (Blk.unexp dl c) ++ (a :: D2)) =
              A ++ dl :: a :: D2 := by
            simp [blkLines]
          rw [hre, updateGo]
          rw [updateStep_insert env hctx A dl a D2 c p δ ed tr hA hnl hcwf]
          have hre2 : (A ++ [dl]) ++ ((wsHead dl ++ env.L.startMarkerTemplate) ::
              applyIndent (wsHead dl) c ++ [wsHead dl ++ env.L.endMarkerTemplate]) ++
              a :: D2 =
              ((A ++ [dl]) ++ ((wsHead dl ++ env.L.startMarkerTemplate) ::
                applyIndent (wsHead dl) c ++ [wsHead dl ++ env.L.endMarkerTemplate])) ++
              docOf bs := by
            rw [hDs]
          rw [hre2]
          have hA2 : ((((A ++ [dl]) ++ ((wsHead dl ++ env.L.startMarkerTemplate) ::
              applyIndent (wsHead dl) c ++
              [wsHead dl ++ env.L.endMarkerTemplate])).length : Nat) : Int) =
              ((p + 1 : Nat) : Int) + (δ + ((c.length + 2 : Nat) : Int)) := by
            simp only [List.length_append, List.length_cons, List.length_nil,
              applyIndent_length]
            push_cast
            omega
          obtain ⟨tr2, heq⟩ := ih (p + 1) _ (δ + ((c.length + 2 : Nat) : Int))
            (ed + 1) (tr ++ [(p, (p : Int) + δ, ((c.length + 2 : Nat) : Int))]) hwf2 hA2
          refine ⟨tr2, ?_⟩
          rw [heq]
          congr 1
          · rw [normDoc_cons]
            simp [normBlk]
          · simp only [List.length_append, blkLines, normBlk, normDoc_cons, docOf_cons,
              List.length_cons, List.length_nil, applyIndent_length, hDs]
            push_cast
            ring
          · rw [dirCount]
            omega
    | exp dl sl mid el c =>
      simp only [blkWFb] at hwf1
      simp only [Bool.and_eq_true, decide_eq_true_eq, List.all_eq_true] at hwf1
      obtain ⟨⟨⟨⟨⟨⟨⟨⟨hhit, hsl⟩, hel⟩, hmid⟩, hinSL⟩, hinEL⟩, hcwf⟩, hinS⟩, hinE⟩ := hwf1
      rw [show entriesOf p (Blk.exp dl sl mid el c :: bs) =
        (p, c) :: entriesOf (p + (mid.length + 3)) bs from rfl]
      rw [docOf_cons]
      have hre : A ++ (blkLines (Blk.exp dl sl mid el c) ++ docOf bs) =
          A ++ dl :: sl :: (mid ++ el :: docOf bs) := by
        simp [blkLines]
      rw [hre, updateGo]
      have hmid2 : ∀ m ∈ mid, ¬ (trimWS m = trimWS env.L.endMarkerTemplate) := by
        intro m hm
        have hx := hmid m hm
        simp only [Bool.and_eq_true, decide_eq_true_eq] at hx
        exact hx.2
      rw [updateStep_replace env hctx A dl sl el mid (docOf bs) c p δ ed tr hA
        hsl hel hmid2 hcwf]
      have hA2 : ((((A ++ [dl]) ++ ((wsHead dl ++ env.L.startMarkerTemplate) ::
          applyIndent (wsHead dl) c ++
          [wsHead dl ++ env.L.endMarkerTemplate])).length : Nat) : Int) =
          ((p + (mid.length + 3) : Nat) : Int) +
            (δ + (((c.length + 2 : Nat) : Int) - ((mid.length + 2 : Nat) : Int))) := by
        simp only [List.length_append, List.length_cons, List.length_nil,
          applyIndent_length]
        push_cast
        omega
      obtain ⟨tr2, heq⟩ := ih (p + (mid.length + 3)) _
        (δ + (((c.length + 2 : Nat) : Int) - ((mid.length + 2 : Nat) : Int)))
        (ed + 1)
        (tr ++ [(p, (p : Int) + δ,
          ((c.length + 2 : Nat) : Int) - ((mid.length + 2 : Nat) : Int))]) hwf2 hA2
      refine ⟨tr2, ?_⟩
      rw [heq]
      congr 1
      · rw [normDoc_cons]
        simp [normBlk]
      · simp only [List.length_append, blkLines, normBlk, normDoc_cons, docOf_cons,
          List.length_cons, List.length_nil, applyIndent_length]
        push_cast
        ring
      · rw [dirCount]
        omega

end VInc

namespace VInc

theorem hitL_none_of_pattern_none (env : ProcEnv) (l : List Char)
    (h : env.L.pattern l = none) : hitL env l = none := by
  rw [hitL, h]

theorem inertb_hitL_none (env : ProcEnv) (l : List Char)
    (h : inertb env l = true) : hitL env l = none := by
  rw [inertb] at h
  cases hq : hitL env l with
  | none => rfl
  | some c => rw [hq] at h; simp at h

theorem hitsFrom_inert_head (env : ProcEnv) (hctx : env.ctx = fun _ _ _ _ => env.L)
    (l0 : List (List Char)) :
    ∀ (xs rest : List (List Char)) (p : Nat),
    (∀ l ∈ xs, hitL env l = none) →
    hitsFrom env l0 p (xs ++ rest) = hitsFrom env l0 (p + xs.length) rest := by
  intro xs
  induction xs with
  | nil => intro rest p _; simp
  | cons x xs ih =>
    intro rest p h
    rw [List.cons_append, hitsFrom]
    rw [hitCtx_const env hctx, h x (List.mem_cons_self x xs)]
    dsimp only
    rw [ih rest (p + 1) (fun l hl => h l (List.mem_cons_of_mem x hl))]
    have hidx : p + 1 + xs.length = p + (x :: xs).length := by
      simp only [List.length_cons]
      omega
    rw [hidx]

theorem lineNE_of_hitNone (env : ProcEnv) (l0 : List (List Char)) (i : Nat)
    (line : List Char) (rest : List (List Char))
    (h : hitCtx env l0 i line = none) :
    lineNE env l0 i line rest = false := by
  rw [lineNE, h]

theorem scanNE_inert_head (env : ProcEnv) (hctx : env.ctx = fun _ _ _ _ => env.L)
    (l0 : List (List Char)) :
    ∀ (xs rest : List (List Char)) (p : Nat),
    (∀ l ∈ xs, hitL env l = none) →
    scanNE env l0 p (xs ++ rest) = scanNE env l0 (p + xs.length) rest := by
  intro xs
  induction xs with
  | nil => intro rest p _; simp
  | cons x xs ih =>
    intro rest p h
    rw [List.cons_append, scanNE]
    rw [lineNE_of_hitNone env l0 p x _ (by
      rw [hitCtx_const env hctx]; exact h x (List.mem_cons_self x xs))]
    rw [Bool.false_or, ih rest (p + 1) (fun l hl => h l (List.mem_cons_of_mem x hl))]
    have hidx : p + 1 + xs.length = p + (x :: xs).length := by
      simp only [List.length_cons]
      omega
    rw [hidx]

theorem hitsFrom_blocks (env : ProcEnv) (hctx : env.ctx = fun _ _ _ _ => env.L)
    (l0 : List (List Char)) :
    ∀ (bs : List Blk) (p : Nat), blksWFb env bs = true →
    hitsFrom env l0 p (docOf bs) = entriesOf p bs := by
  intro bs
  induction bs with
  | nil => intro p _; simp [docOf, hitsFrom, entriesOf]
  | cons b bs ih =>
    intro p hwf
    rw [blksWFb, Bool.and_eq_true] at hwf
    obtain ⟨hwf1, hwf2⟩ := hwf
    cases b with
    | plain l =>
      simp only [blkWFb] at hwf1
      rw [docOf_cons]
      have : blkLines (Blk.plain l) ++ docOf bs = l :: docOf bs := by simp [blkLines]
      rw [this, hitsFrom, hitCtx_const env hctx, inertb_hitL_none env l hwf1]
      rw [ih (p + 1) hwf2]
      rfl
    | unexp dl c =>
      simp only [blkWFb] at hwf1
      cases hd : (docOf bs).head? with
      | none => rw [hd] at hwf1; simp at hwf1
      | some nl =>
        rw [hd] at hwf1
        simp only [Bool.and_eq_true, decide_eq_true_eq] at hwf1
        obtain ⟨⟨⟨⟨hhit, _⟩, _⟩, _⟩, _⟩ := hwf1
        rw [docOf_cons]
        have : blkLines (Blk.unexp dl c) ++ docOf bs = dl :: docOf bs := by simp [blkLines]
        rw [this, hitsFrom, hitCtx_const env hctx, hhit]
        rw [ih (p + 1) hwf2]
        rfl
    | exp dl sl mid el c =>
      simp only [blkWFb] at hwf1
      simp only [Bool.and_eq_true, decide_eq_true_eq, List.all_eq_true] at hwf1
      obtain ⟨⟨⟨⟨⟨⟨⟨⟨hhit, _⟩, _⟩, hmid⟩, hinSL⟩, hinEL⟩, _⟩, _⟩, _⟩ := hwf1
      rw [docOf_cons]
      have hsh : blkLines (Blk.exp dl sl mid el c) ++ docOf bs =
          dl :: sl :: ((mid ++ [el]) ++ docOf bs) := by simp [blkLines]
      rw [hsh, hitsFrom, hitCtx_const env hctx, hhit, hitsFrom,
        hitCtx_const env hctx, inertb_hitL_none env sl hinSL]
      rw [hitsFrom_inert_head env hctx l0 (mid ++ [el]) (docOf bs) (p + 1 + 1) ?hins]
      case hins =>
        intro l hl
        rcases List.mem_append.mp hl with hm | hm
        · have hx := hmid l hm
          simp only [Bool.and_eq_true] at hx
          exact inertb_hitL_none env l hx.1
        · have : l = el := by simpa using hm
          subst this
          exact inertb_hitL_none env l hinEL
      rw [ih (p + 1 + 1 + (mid ++ [el]).length) hwf2]
      have : p + 1 + 1 + (mid ++ [el]).length = p + (mid.length + 3) := by
        simp only [List.length_append, List.length_cons, List.length_nil]
        omega
      rw [this]
      rfl

end VInc

namespace VInc

theorem contentWF_lines (env : ProcEnv) (ind : List Char) (c : List (List Char))
    (h : contentWFb env ind c = true) :
    ∀ il ∈ applyIndent ind c, (env.L.pattern il).isNone = true ∧
      ¬ (trimWS il = trimWS env.L.endMarkerTemplate) := by
  intro il hil
  rw [applyIndent] at hil
  obtain ⟨l, hl, hmap⟩ := List.mem_map.mp hil
  rw [contentWFb, List.all_eq_true] at h
  have := h l hl
  simp only [Bool.and_eq_true, decide_eq_true_eq] at this
  rw [← hmap]
  exact this

theorem lineNE_norm_dir (env : ProcEnv) (hctx : env.ctx = fun _ _ _ _ => env.L)
    (l0 : List (List Char)) (p : Nat) (dl : List Char) (c : List (List Char))
    (rest : List (List Char)) (hhit : hitL env dl = some c)
    (hcwf : contentWFb env (wsHead dl) c = true) :
    lineNE env l0 p dl ((wsHead dl ++ env.L.startMarkerTemplate) ::
      (applyIndent (wsHead dl) c ++
        (wsHead dl ++ env.L.endMarkerTemplate) :: rest)) = false := by
  have h1 : hitCtx env l0 p dl = some c := by
    rw [hitCtx_const env hctx]; exact hhit
  have h2 := dirPathOf_const_isSome env hctx l0 p dl c hhit
  rw [lineNE, h1]
  obtain ⟨rp, h3⟩ := Option.isSome_iff_exists.mp h2
  rw [h3]
  dsimp only
  simp only [hctx]
  have hst : trimWS (wsHead dl ++ env.L.startMarkerTemplate) =
      trimWS env.L.startMarkerTemplate :=
    trimWS_ws_prepend _ _ (wsHead_all_ws dl)
  rw [if_pos (Or.inl hst)]
  have hfe : findFirstEndRel (trimWS env.L.endMarkerTemplate)
      (trimWS env.L.endMarkerTemplate)
      (applyIndent (wsHead dl) c ++ (wsHead dl ++ env.L.endMarkerTemplate) :: rest) =
      some (applyIndent (wsHead dl) c).length := by
    apply findFirstEndRel_mid
    · intro m hm
      intro hor
      have hcc := (contentWF_lines env (wsHead dl) c hcwf m hm).2
      rcases hor with ho | ho <;> exact hcc ho
    · exact Or.inl (trimWS_ws_prepend _ _ (wsHead_all_ws dl))
  rw [hfe]
  dsimp only
  rw [List.take_left]
  simp

theorem scanNE_norm (env : ProcEnv) (hctx : env.ctx = fun _ _ _ _ => env.L)
    (l0 : List (List Char)) :
    ∀ (bs : List Blk) (p : Nat), blksWFb env bs = true →
    scanNE env l0 p (normDoc env bs) = false := by
  intro bs
  induction bs with
  | nil => intro p _; simp [normDoc, scanNE]
  | cons b bs ih =>
    intro p hwf
    rw [blksWFb, Bool.and_eq_true] at hwf
    obtain ⟨hwf1, hwf2⟩ := hwf
    rw [normDoc_cons]
    cases b with
    | plain l =>
      simp only [blkWFb] at hwf1
      have hsh : normBlk env (Blk.plain l) ++ normDoc env bs = l :: normDoc env bs := by
        simp [normBlk]
      rw [hsh, scanNE]
      rw [lineNE_of_hitNone env l0 p l _ (by
        rw [hitCtx_const env hctx]; exact inertb_hitL_none env l hwf1)]
      rw [Bool.false_or]
      exact ih (p + 1) hwf2
    | unexp dl c =>
      simp only [blkWFb] at hwf1
      cases hd : (docOf bs).head? with
      | none => rw [hd] at hwf1; simp at hwf1
      | some nl =>
        rw [hd] at hwf1
        simp only [Bool.and_eq_true, decide_eq_true_eq] at hwf1
        obtain ⟨⟨⟨⟨hhit, _⟩, hcwf⟩, hinS⟩, hinE⟩ := hwf1
        have hsh : normBlk env (Blk.unexp dl c) ++ normDoc env bs =
            dl :: ((wsHead dl ++ env.L.startMarkerTemplate) ::
              (applyIndent (wsHead dl) c ++
                (wsHead dl ++ env.L.endMarkerTemplate) :: normDoc env bs)) := by
          simp [normBlk]
        rw [hsh, scanNE]
        rw [lineNE_norm_dir env hctx l0 p dl c (normDoc env bs) hhit hcwf]
        rw [Bool.false_or]
        have hsh2 : (wsHead dl ++ env.L.startMarkerTemplate) ::
            (applyIndent (wsHead dl) c ++
              (wsHead dl ++ env.L.endMarkerTemplate) :: normDoc env bs) =
            ((wsHead dl ++ env.L.startMarkerTemplate) ::
              (applyIndent (wsHead dl) c ++
                [wsHead dl ++ env.L.endMarkerTemplate])) ++ normDoc env bs := by
          simp
        rw [hsh2]
        rw [scanNE_inert_head env hctx l0 _ _ (p + 1) ?hin]
        case hin =>
          intro l hl
          rcases List.mem_cons.mp hl with hm | hm
          · subst hm
            exact inertb_hitL_none env _ hinS
          · rcases List.mem_append.mp hm with hm2 | hm2
            · exact hitL_none_of_pattern_none env l (by
                have := (contentWF_lines env (wsHead dl) c hcwf l hm2).1
                cases hq : env.L.pattern l with
                | none => rfl
                | some v => rw [hq] at this; simp at this)
            · have : l = wsHead dl ++ env.L.endMarkerTemplate := by simpa using hm2
              subst this
              exact inertb_hitL_none env _ hinE
        exact ih _ hwf2
    | exp dl sl mid el c =>
      simp only [blkWFb] at hwf1
      simp only [Bool.and_eq_true, decide_eq_true_eq, List.all_eq_true] at hwf1
      obtain ⟨⟨⟨⟨⟨⟨⟨⟨hhit, _⟩, _⟩, _⟩, _⟩, _⟩, hcwf⟩, hinS⟩, hinE⟩ := hwf1
      have hsh : normBlk env (Blk.exp dl sl mid el c) ++ normDoc env bs =
          dl :: ((wsHead dl ++ env.L.startMarkerTemplate) ::
            (applyIndent (wsHead dl) c ++
              (wsHead dl ++ env.L.endMarkerTemplate) :: normDoc env bs)) := by
        simp [normBlk]
      rw [hsh, scanNE]
      rw [lineNE_norm_dir env hctx l0 p dl c (normDoc env bs) hhit hcwf]
      rw [Bool.false_or]
      have hsh2 : (wsHead dl ++ env.L.startMarkerTemplate) ::
          (applyIndent (wsHead dl) c ++
            (wsHead dl ++ env.L.endMarkerTemplate) :: normDoc env bs) =
          ((wsHead dl ++ env.L.startMarkerTemplate) ::
            (applyIndent (wsHead dl) c ++
              [wsHead dl ++ env.L.endMarkerTemplate])) ++ normDoc env bs := by
        simp
      rw [hsh2]
      rw [scanNE_inert_head env hctx l0 _ _ (p + 1) ?hin2]
      case hin2 =>
        intro l hl
        rcases List.mem_cons.mp hl with hm | hm
        · subst hm
          exact inertb_hitL_none env _ hinS
        · rcases List.mem_append.mp hm with hm2 | hm2
          · exact hitL_none_of_pattern_none env l (by
              have := (contentWF_lines env (wsHead dl) c hcwf l hm2).1
              cases hq : env.L.pattern l with
              | none => rfl
              | some v => rw [hq] at this; simp at this)
          · have : l = wsHead dl ++ env.L.endMarkerTemplate := by simpa using hm2
            subst this
            exact inertb_hitL_none env _ hinE
      exact ih _ hwf2

end VInc

namespace VInc

theorem entriesOf_key_ge : ∀ (bs : List Blk) (p : Nat), ∀ e ∈ entriesOf p bs, p ≤ e.1 := by
  intro bs
  induction bs with
  | nil => intro p e he; simp [entriesOf] at he
  | cons b bs ih =>
    intro p e he
    cases b with
    | plain l =>
      rw [show entriesOf p (Blk.plain l :: bs) = entriesOf (p + 1) bs from rfl] at he
      have := ih (p + 1) e he
      omega
    | unexp dl c =>
      rw [show entriesOf p (Blk.unexp dl c :: bs) =
        (p, c) :: entriesOf (p + 1) bs from rfl] at he
      rcases List.mem_cons.mp he with h | h
      · subst h; exact le_refl p
      · have := ih (p + 1) e h
        omega
    | exp dl sl mid el c =>
      rw [show entriesOf p (Blk.exp dl sl mid el c :: bs) =
        (p, c) :: entriesOf (p + (mid.length + 3)) bs from rfl] at he
      rcases List.mem_cons.mp he with h | h
      · subst h; exact le_refl p
      · have := ih (p + (mid.length + 3)) e h
        omega

theorem entriesOf_sorted : ∀ (bs : List Blk) (p : Nat),
    List.Sorted (fun a b => a.1 ≤ b.1) (entriesOf p bs) := by
  intro bs
  induction bs with
  | nil => intro p; simp [entriesOf]
  | cons b bs ih =>
    intro p
    cases b with
    | plain l =>
      rw [show entriesOf p (Blk.plain l :: bs) = entriesOf (p + 1) bs from rfl]
      exact ih (p + 1)
    | unexp dl c =>
      rw [show entriesOf p (Blk.unexp dl c :: bs) =
        (p, c) :: entriesOf (p + 1) bs from rfl]
      refine List.Pairwise.cons ?_ (ih (p + 1))
      intro e he
      have := entriesOf_key_ge bs (p + 1) e he
      show p ≤ e.1
      omega
    | exp dl sl mid el c =>
      rw [show entriesOf p (Blk.exp dl sl mid el c :: bs) =
        (p, c) :: entriesOf (p + (mid.length + 3)) bs from rfl]
      refine List.Pairwise.cons ?_ (ih (p + (mid.length + 3)))
      intro e he
      have := entriesOf_key_ge bs (p + (mid.length + 3)) e he
      show p ≤ e.1
      omega

/-- C3 (amended): for a document decomposing into well-formed blocks — every
non-directive line inert, every processable directive followed by a line that
is not the start-marker template, and every included file's content free of
lines that match the pattern or trim to the markers — and with constant
context resolution, running a processing pass twice in succession with the
file system unchanged produces zero edits on the second pass. The original
claim over all documents is refuted by `c3_nested_include_reedits`: when
included content itself contains a directive line, the staleness comparison
matches the raw file text against the neutralized region and re-edits. -/
theorem c3_second_pass_zero_edits (env : ProcEnv)
    (hctx : env.ctx = fun _ _ _ _ => env.L)
    (bs : List Blk) (hwf : blksWFb env bs = true) :
    (processPass env (processPass env (docOf bs)).lines).edits = 0 := by
  have hscan := scanDocument_spec env (docOf bs)
  by_cases hne : scanNE env (docOf bs) 0 (docOf bs) = true
  · have hlines : (processPass env (docOf bs)).lines = normDoc env bs := by
      rw [processPass, hscan]
      dsimp only
      rw [hne]
      rw [if_pos rfl]
      dsimp only
      rw [hitsFrom_blocks env hctx (docOf bs) bs 0 hwf]
      rw [updateDocument]
      rw [show sortEntries (entriesOf 0 bs) = entriesOf 0 bs from
        List.Sorted.insertionSort_eq (entriesOf_sorted bs 0)]
      obtain ⟨tr2, hgo⟩ := updateGo_blocks env hctx bs 0 [] 0 0 [] hwf (by simp)
      rw [List.nil_append] at hgo
      rw [hgo]
      simp
    rw [hlines]
    rw [processPass, scanDocument_spec env (normDoc env bs)]
    dsimp only
    rw [scanNE_norm env hctx (normDoc env bs) bs 0 hwf]
    simp
  · have hne2 : scanNE env (docOf bs) 0 (docOf bs) = false := by
      simpa using hne
    have hlines : (processPass env (docOf bs)).lines = docOf bs := by
      rw [processPass, hscan]
      dsimp only
      rw [hne2]
      simp
    rw [hlines]
    rw [processPass, hscan]
    dsimp only
    rw [hne2]
    simp

end VInc

namespace VInc

theorem docOf_map_plain : ∀ (xs : List (List Char)), docOf (xs.map Blk.plain) = xs := by
  intro xs
  induction xs with
  | nil => rfl
  | cons x xs ih =>
    rw [List.map_cons, docOf_cons, ih]
    simp [blkLines]

theorem normDoc_map_plain (env : ProcEnv) :
    ∀ (xs : List (List Char)), normDoc env (xs.map Blk.plain) = xs := by
  intro xs
  induction xs with
  | nil => rfl
  | cons x xs ih =>
    rw [List.map_cons, normDoc_cons, ih]
    simp [normBlk]

theorem docOf_append (xs ys : List Blk) : docOf (xs ++ ys) = docOf xs ++ docOf ys := by
  simp [docOf]

theorem normDoc_append (env : ProcEnv) (xs ys : List Blk) :
    normDoc env (xs ++ ys) = normDoc env xs ++ normDoc env ys := by
  simp [normDoc]

theorem blksWFb_plain_split (env : ProcEnv) :
    ∀ (xs : List (List Char)) (rest : List Blk),
    blksWFb env (xs.map Blk.plain ++ rest) = true →
    (∀ l ∈ xs, inertb env l = true) ∧ blksWFb env rest = true := by
  intro xs
  induction xs with
  | nil => intro rest h; exact ⟨by simp, h⟩
  | cons x xs ih =>
    intro rest h
    rw [List.map_cons, List.cons_append, blksWFb, Bool.and_eq_true] at h
    obtain ⟨h1, h2⟩ := ih rest h.2
    refine ⟨?_, h2⟩
    intro l hl
    rcases List.mem_cons.mp hl with hm | hm
    · subst hm
      simpa [blkWFb] using h.1
    · exact h1 l hm

theorem lineNE_unexp_true (env : ProcEnv) (hctx : env.ctx = fun _ _ _ _ => env.L)
    (l0 : List (List Char)) (i : Nat) (dl nl : List Char) (rest2 : List (List Char))
    (c : List (List Char)) (hhit : hitL env dl = some c)
    (hnl : ¬ (trimWS nl = trimWS env.L.startMarkerTemplate)) :
    lineNE env l0 i dl (nl :: rest2) = true := by
  have h1 : hitCtx env l0 i dl = some c := by
    rw [hitCtx_const env hctx]; exact hhit
  have h2 := dirPathOf_const_isSome env hctx l0 i dl c hhit
  rw [lineNE, h1]
  obtain ⟨rp, h3⟩ := Option.isSome_iff_exists.mp h2
  rw [h3]
  dsimp only
  simp only [hctx]
  rw [if_neg (by intro hor; rcases hor with ho | ho <;> exact hnl ho)]

theorem stripLine_applyIndent (ind l : List Char) :
    stripLine ind (if l.length > 0 then ind ++ l else l) = l := by
  by_cases hl : l.length > 0
  · rw [if_pos hl, stripLine]
    have hp : ind.isPrefixOf (ind ++ l) = true := by
      rw [List.isPrefixOf_iff_prefix]
      exact List.prefix_append ind l
    rw [if_pos hp, List.drop_left]
  · rw [if_neg hl]
    have : l = [] := by
      cases l with
      | nil => rfl
      | cons a as => simp at hl
    subst this
    rw [stripLine]
    by_cases hp : ind.isPrefixOf ([] : List Char)
    · rw [if_pos hp]
      have : ind = [] := by
        rw [List.isPrefixOf_iff_prefix] at hp
        simpa using hp
      subst this
      rfl
    · rw [if_neg hp]

theorem stripIndent_applyIndent (ind : List Char) (c : List (List Char)) :
    stripIndent ind (applyIndent ind c) = c := by
  rw [stripIndent, applyIndent, List.map_map]
  have : (stripLine ind ∘ fun cl => if cl.length > 0 then ind ++ cl else cl) = id := by
    funext l
    simp only [Function.comp, id]
    exact stripLine_applyIndent ind l
  rw [this, List.map_id]

/-- C6 (amended): for a document whose lines are inert except for one
processable directive (not followed by a start-marker line) referencing an
existing file with content C, where C's lines, once indented, neither match
the directive pattern nor trim to a marker template, one pass places after
the directive line a start marker with the directive's indentation, C with
that indentation prepended to every non-empty line, and an end marker, and
stripping the indentation from the indented content recovers exactly C. The
unrestricted claim is refuted by `c6_roundtrip_fails_on_nested_directive`:
content containing a nested directive line is neutralized before insertion,
so extracting the region does not return the original file content. -/
theorem c6_single_directive_roundtrip (env : ProcEnv)
    (hctx : env.ctx = fun _ _ _ _ => env.L)
    (pre post : List (List Char)) (dl : List Char) (c : List (List Char))
    (hwf : blksWFb env (pre.map Blk.plain ++ Blk.unexp dl c :: post.map Blk.plain) = true) :
    (processPass env
        (docOf (pre.map Blk.plain ++ Blk.unexp dl c :: post.map Blk.plain))).lines =
      pre ++ dl :: (wsHead dl ++ env.L.startMarkerTemplate) ::
        (applyIndent (wsHead dl) c ++ (wsHead dl ++ env.L.endMarkerTemplate) :: post) ∧
    stripIndent (wsHead dl) (applyIndent (wsHead dl) c) = c := by
  constructor
  · -- the pass rewrites the document into the normalized block form
    have hdoc : docOf (pre.map Blk.plain ++ Blk.unexp dl c :: post.map Blk.plain) =
        pre ++ dl :: post := by
      rw [docOf_append, docOf_map_plain, docOf_cons, docOf_map_plain]
      simp [blkLines]
    have hnorm : normDoc env (pre.map Blk.plain ++ Blk.unexp dl c :: post.map Blk.plain) =
        pre ++ dl :: (wsHead dl ++ env.L.startMarkerTemplate) ::
          (applyIndent (wsHead dl) c ++ (wsHead dl ++ env.L.endMarkerTemplate) :: post) := by
      rw [normDoc_append, normDoc_map_plain, normDoc_cons, normDoc_map_plain]
      simp [normBlk]
    -- the scan needs an edit: the unexp directive line reports true
    obtain ⟨hpre, hrest⟩ := blksWFb_plain_split env pre _ hwf
    have hwfu := hrest
    rw [blksWFb, Bool.and_eq_true] at hwfu
    obtain ⟨hwf1, _⟩ := hwfu
    simp only [blkWFb] at hwf1
    cases hd : (docOf (post.map Blk.plain)).head? with
    | none => rw [hd] at hwf1; simp at hwf1
    | some nl =>
      rw [hd] at hwf1
      simp only [Bool.and_eq_true, decide_eq_true_eq] at hwf1
      obtain ⟨⟨⟨⟨hhit, hnl⟩, _⟩, _⟩, _⟩ := hwf1
      rw [docOf_map_plain] at hd
      cases hpost : post with
      | nil => rw [hpost] at hd; simp at hd
      | cons a post2 =>
        subst hpost
        have ha : a = nl := by simpa using hd
        subst ha
        have hne : scanNE env
            (docOf (pre.map Blk.plain ++ Blk.unexp dl c :: (a :: post2).map Blk.plain)) 0
            (docOf (pre.map Blk.plain ++ Blk.unexp dl c :: (a :: post2).map Blk.plain)) =
              true := by
          rw [hdoc]
          rw [scanNE_inert_head env hctx _ pre _ 0
            (fun l hl => inertb_hitL_none env l (hpre l hl))]
          rw [scanNE]
          rw [lineNE_unexp_true env hctx _ _ dl a post2 c hhit hnl]
          simp
        rw [processPass, scanDocument_spec]
        dsimp only
        rw [hne, if_pos rfl]
        dsimp only
        rw [hitsFrom_blocks env hctx _ _ 0 hwf]
        rw [updateDocument]
        rw [show sortEntries (entriesOf 0
            (pre.map Blk.plain ++ Blk.unexp dl c :: (a :: post2).map Blk.plain)) =
          entriesOf 0 (pre.map Blk.plain ++ Blk.unexp dl c :: (a :: post2).map Blk.plain) from
          List.Sorted.insertionSort_eq (entriesOf_sorted _ 0)]
        obtain ⟨tr2, hgo⟩ := updateGo_blocks env hctx
          (pre.map Blk.plain ++ Blk.unexp dl c :: (a :: post2).map Blk.plain) 0 [] 0 0 [] hwf
          (by simp)
        rw [List.nil_append] at hgo
        rw [hgo]
        rw [← hnorm]
        simp
  · exact stripIndent_applyIndent (wsHead dl) c


theorem c3_second_pass_zero_edits_witness :
    (mkEnv fsHello).ctx = (fun _ _ _ _ => (mkEnv fsHello).L) ∧
    blksWFb (mkEnv fsHello)
      [Blk.unexp (str "# virtualInclude \"a.py\"") [str "hello"],
        Blk.plain (str "t")] = true ∧
    (processPass (mkEnv fsHello)
      (processPass (mkEnv fsHello)
        (docOf
          [Blk.unexp (str "# virtualInclude \"a.py\"") [str "hello"],
            Blk.plain (str "t")])).lines).edits = 0 :=
  ⟨rfl, by decide,
    c3_second_pass_zero_edits (mkEnv fsHello) rfl
      [Blk.unexp (str "# virtualInclude \"a.py\"") [str "hello"],
        Blk.plain (str "t")] (by decide)⟩

theorem c6_single_directive_roundtrip_witness :
    (mkEnv fsHello).ctx = (fun _ _ _ _ => (mkEnv fsHello).L) ∧
    blksWFb (mkEnv fsHello)
      (([str "x"]).map Blk.plain ++
        Blk.unexp (str "  # virtualInclude \"a.py\"") [str "hello"] ::
          ([str "t"]).map Blk.plain) = true ∧
    ((processPass (mkEnv fsHello)
        (docOf (([str "x"]).map Blk.plain ++
          Blk.unexp (str "  # virtualInclude \"a.py\"") [str "hello"] ::
            ([str "t"]).map Blk.plain))).lines =
      [str "x"] ++ str "  # virtualInclude \"a.py\"" ::
        (wsHead (str "  # virtualInclude \"a.py\"") ++
          (mkEnv fsHello).L.startMarkerTemplate) ::
        (applyIndent (wsHead (str "  # virtualInclude \"a.py\"")) [str "hello"] ++
          (wsHead (str "  # virtualInclude \"a.py\"") ++
            (mkEnv fsHello).L.endMarkerTemplate) :: [str "t"]) ∧
    stripIndent (wsHead (str "  # virtualInclude \"a.py\""))
      (applyIndent (wsHead (str "  # virtualInclude \"a.py\"")) [str "hello"]) =
      [str "hello"]) :=
  ⟨rfl, by decide,
    c6_single_directive_roundtrip (mkEnv fsHello) rfl
      [str "x"] [str "t"] (str "  # virtualInclude \"a.py\"") [str "hello"]
      (by decide)⟩

end VInc
